import Mathlib

/-!
# DFRobot DC motor driver: register protocol layer

A shallow embedding of `DFRobot_DC_Motor.go`.

* The I2C transport (`github.com/d2r2/go-i2c`) is an external collaborator.  It is
  modelled by an environment `Env` that decides, from the history of bus operations
  issued so far, whether the next operation reports an error and what a read returns.
  Every operation the driver issues is appended to a trace, so that "which bus
  operations were issued, in which order" is an observable of each driver function.
* Bytes, `uint16`, `uint32`, `int32` are natural numbers / integers with explicit
  reduction modulo `2^w`.
* `float32` is modelled exactly: a finite value is `(-1)^neg * m * 2^e`; the product
  `speed*10.0` is rounded to nearest, ties to even, as IEEE 754 binary32 does.
* Logging calls have no effect, except `lg.Fatal`, whose behaviour (return to the
  caller, or terminate the process) belongs to the external logger and is a parameter
  of the environment.
-/

namespace DFRobot

/-! ## Register map and enumerations (source lines 13-60) -/

def _REG_SLAVE_ADDR : Nat := 0x00
def _REG_PID : Nat := 0x01
def _REG_PVD : Nat := 0x02
def _REG_CTRL_MODE : Nat := 0x03
def _REG_ENCODER1_EN : Nat := 0x04
def _REG_ENCODER1_SPPED : Nat := 0x05
def _REG_ENCODER1_REDUCTION_RATIO : Nat := 0x07
def _REG_ENCODER2_EN : Nat := 0x09
def _REG_ENCODER2_SPEED : Nat := 0x0a
def _REG_ENCODER2_REDUCTION_RATIO : Nat := 0x0c
def _REG_MOTOR_PWM : Nat := 0x0e
def _REG_MOTOR1_ORIENTATION : Nat := 0x0f
def _REG_MOTOR1_SPEED : Nat := 0x10
def _REG_MOTOR2_ORIENTATION : Nat := 0x12
def _REG_MOTOR2_SPEED : Nat := 0x13

def _REG_DEF_PID : Nat := 0xdf
def _REG_DEF_VID : Nat := 0x10

/-- Motor channel ids (`type MotorId byte`). -/
def M1 : Nat := 0x01
def M2 : Nat := 0x02

/-- Orientation values (`type Direction byte`). -/
def CW : Nat := 0x01
def CCW : Nat := 0x02
def STOP : Nat := 0x05

/-! ## 8-bit wrapping arithmetic -/

/-- Addition of two bytes, wrapping modulo 256. -/
def add8 (a b : Nat) : Nat := (a + b) % 256

/-- Subtraction of two bytes, wrapping modulo 256. -/
def sub8 (a b : Nat) : Nat := (a % 256 + 256 - b % 256) % 256

/-- Multiplication of two bytes, wrapping modulo 256. -/
def mul8 (a b : Nat) : Nat := (a * b) % 256

/-! ## The bus transport -/

/-- An open connection handle (`i2c.I2C`): the device address and the bus number. -/
structure I2C where
  addr : Nat
  bus : Nat
  deriving DecidableEq, Repr

/-- One operation requested from the transport. -/
inductive BusOp where
  | newI2C (addr bus : Nat)
  | readRegU8 (h : I2C) (reg : Nat)
  | readRegU16BE (h : I2C) (reg : Nat)
  | writeRegU8 (h : I2C) (reg value : Nat)
  | writeRegU16BE (h : I2C) (reg value : Nat)
  | close (h : I2C)
  deriving DecidableEq, Repr

/-- The operations issued so far, oldest first. -/
abbrev Trace := List BusOp

/-- A finite or special `float32` value; `fin neg m e` stands for `(-1)^neg * m * 2^e`. -/
inductive F32 where
  | nan
  | inf (neg : Bool)
  | fin (neg : Bool) (m : Nat) (e : Int)
  deriving DecidableEq, Repr

/-- The environment of the driver: the transport and the external libraries. -/
structure Env where
  /-- does the transport report an error for this operation, after this history? -/
  fails : Trace → BusOp → Bool
  /-- the data a read delivers when it succeeds, after this history -/
  data : Trace → BusOp → Nat
  /-- does the logger's `Fatal` terminate the process (instead of returning)? -/
  fatalExits : Bool
  /-- implementation-dependent result of converting an unrepresentable `float32` to `uint16` -/
  convUndef : F32 → Nat

/-- How a call ends: it returns a value, it dereferences a nil pointer, or the process
is terminated by the logger. -/
inductive Outcome (α : Type) where
  | ret (a : α)
  | nilDeref
  | exited
  deriving DecidableEq, Repr

/-- Sequencing of calls: an abnormal end of the first call ends the whole. -/
def Outcome.andThen {α β : Type} (r : Outcome α × Trace)
    (k : α → Trace → Outcome β × Trace) : Outcome β × Trace :=
  match r with
  | (.ret a, tr) => k a tr
  | (.nilDeref, tr) => (.nilDeref, tr)
  | (.exited, tr) => (.exited, tr)

/-- The call `i2c.NewI2C(addr, bus)`: `none` is a non-nil error. -/
def NewI2C (env : Env) (addr bus : Nat) (tr : Trace) : Option I2C × Trace :=
  let op := BusOp.newI2C addr bus
  (if env.fails tr op then none else some ⟨addr, bus⟩, tr ++ [op])

/-- The method `(*I2C).ReadRegU8(reg)`: `none` is a non-nil error, `some b` a byte. -/
def I2C.ReadRegU8 (env : Env) (v : I2C) (reg : Nat) (tr : Trace) : Option Nat × Trace :=
  let op := BusOp.readRegU8 v reg
  (if env.fails tr op then none else some (env.data tr op % 256), tr ++ [op])

/-- The method `(*I2C).ReadRegU16BE(reg)`: `none` is a non-nil error, `some w` a 16-bit
word. -/
def I2C.ReadRegU16BE (env : Env) (v : I2C) (reg : Nat) (tr : Trace) : Option Nat × Trace :=
  let op := BusOp.readRegU16BE v reg
  (if env.fails tr op then none else some (env.data tr op % 65536), tr ++ [op])

/-- The method `(*I2C).WriteRegU8(reg, value)`: the result is `true` when `err != nil`. -/
def I2C.WriteRegU8 (env : Env) (v : I2C) (reg value : Nat) (tr : Trace) : Bool × Trace :=
  let op := BusOp.writeRegU8 v reg value
  (env.fails tr op, tr ++ [op])

/-- The method `(*I2C).WriteRegU16BE(reg, value)`: the result is `true` when `err != nil`. -/
def I2C.WriteRegU16BE (env : Env) (v : I2C) (reg value : Nat) (tr : Trace) : Bool × Trace :=
  let op := BusOp.writeRegU16BE v reg value
  (env.fails tr op, tr ++ [op])

/-- The method `(*I2C).Close()`; its error result is discarded by every caller. -/
def I2C.Close (_env : Env) (v : I2C) (tr : Trace) : Trace :=
  tr ++ [BusOp.close v]

/-! ## The controller -/

/-- The controller, `type DFMotor struct { i2cbus *i2c.I2C; Addr byte }`; `none` is a nil
`i2cbus`. -/
structure DFMotor where
  i2cbus : Option I2C
  Addr : Nat
  deriving DecidableEq, Repr

/-- The handle reached by `drv.i2cbus` through a possibly nil `drv`; `none` when either
pointer is nil. -/
def busOf (drv : Option DFMotor) : Option I2C :=
  match drv with
  | none => none
  | some d => d.i2cbus

/-- Source lines 72-86. -/
def checkBoard (env : Env) (i2cbus : Option I2C) (tr : Trace) : Outcome Bool × Trace :=
  match i2cbus with
  | none => (.nilDeref, tr)
  | some bus =>
    match I2C.ReadRegU8 env bus _REG_PID tr with
    | (none, tr1) => (.ret false, tr1)
    | (some pid, tr1) =>
      match I2C.ReadRegU8 env bus _REG_PVD tr1 with
      | (none, tr2) => (.ret false, tr2)
      | (some vid, tr2) =>
        if pid ≠ _REG_DEF_PID ∨ vid ≠ _REG_DEF_VID then (.ret false, tr2)
        else (.ret true, tr2)

/-- Source lines 228-236. The register number is computed in `MotorId` (byte) arithmetic. -/
def DFMotor.MotorStop (env : Env) (drv : Option DFMotor) (id : Nat) (tr : Trace) :
    Outcome Bool × Trace :=
  match busOf drv with
  | none => (.nilDeref, tr)
  | some bus =>
    match I2C.WriteRegU8 env bus (add8 _REG_MOTOR1_ORIENTATION (mul8 3 (sub8 id 1))) STOP tr with
    | (true, tr1) => (.ret false, tr1)
    | (false, tr1) => (.ret true, tr1)

/-- Source lines 129-137. -/
def DFMotor.SetEncoderEnable (env : Env) (drv : Option DFMotor) (id : Nat) (tr : Trace) :
    Outcome Bool × Trace :=
  match busOf drv with
  | none => (.nilDeref, tr)
  | some bus =>
    match I2C.WriteRegU8 env bus (add8 _REG_ENCODER1_EN (mul8 5 (sub8 id 1))) 0x01 tr with
    | (true, tr1) => (.ret false, tr1)
    | (false, tr1) => (.ret true, tr1)

/-- Source lines 139-147. -/
def DFMotor.SetEncoderDisable (env : Env) (drv : Option DFMotor) (id : Nat) (tr : Trace) :
    Outcome Bool × Trace :=
  match busOf drv with
  | none => (.nilDeref, tr)
  | some bus =>
    match I2C.WriteRegU8 env bus (add8 _REG_ENCODER1_EN (mul8 5 (sub8 id 1))) 0x0 tr with
    | (true, tr1) => (.ret false, tr1)
    | (false, tr1) => (.ret true, tr1)

/-- Source lines 149-161; `reductionRatio` is a `uint16`. -/
def DFMotor.SetEncoderReductionRatio (env : Env) (drv : Option DFMotor) (id reductionRatio : Nat)
    (tr : Trace) : Outcome Bool × Trace :=
  if reductionRatio < 1 ∨ reductionRatio > 2000 then (.ret false, tr)
  else
    match busOf drv with
    | none => (.nilDeref, tr)
    | some bus =>
      match I2C.WriteRegU16BE env bus
          (add8 _REG_ENCODER1_REDUCTION_RATIO (mul8 5 (sub8 id 1))) reductionRatio tr with
      | (true, tr1) => (.ret false, tr1)
      | (false, tr1) => (.ret true, tr1)

/-- The conversion `int32(u)` of a `uint32` value: reinterpretation as two's complement. -/
def int32OfUint32 (u : Nat) : Int :=
  if u % 4294967296 < 2147483648 then (u % 4294967296 : Nat)
  else ((u % 4294967296 : Nat) : Int) - 4294967296

/-- Lines 169-172 of the source: the decoding of the raw word `s` (a `uint16`);
`0x10000 - uint32(s)` and its negation are computed in `uint32`. -/
def decodeSpeed (s : Nat) : Int :=
  if s % 65536 / 32768 % 2 = 1 then
    int32OfUint32 ((4294967296 - (0x10000 + 4294967296 - s % 65536) % 4294967296) % 4294967296)
  else int32OfUint32 (s % 65536)

/-- Source lines 163-173. -/
def DFMotor.GetEncoderSpeed (env : Env) (drv : Option DFMotor) (id : Nat) (tr : Trace) :
    Outcome Int × Trace :=
  match busOf drv with
  | none => (.nilDeref, tr)
  | some bus =>
    match I2C.ReadRegU16BE env bus (add8 _REG_ENCODER1_SPPED (mul8 5 (sub8 id 1))) tr with
    | (none, tr1) => (.ret 0, tr1)
    | (some s, tr1) => (.ret (decodeSpeed s), tr1)

/-- Truncated integer division of Go (`/` on `int`): the quotient is rounded toward zero. -/
def goDiv (a b : Int) : Int := Int.tdiv a b

/-- The conversion `byte(x)` of an `int`: the low eight bits. -/
def byteOfInt (x : Int) : Nat := (x % 256).toNat

/-- Source lines 175-188; the settling delay `time.Sleep` has no effect on the bus. -/
def DFMotor.SetMoterPwmFrequency (env : Env) (drv : Option DFMotor) (frequency : Int)
    (tr : Trace) : Outcome Bool × Trace :=
  if frequency < 100 ∨ frequency > 12750 then (.ret false, tr)
  else
    match busOf drv with
    | none => (.nilDeref, tr)
    | some bus =>
      match I2C.WriteRegU8 env bus _REG_CTRL_MODE (byteOfInt (goDiv frequency 50)) tr with
      | (true, tr1) => (.ret false, tr1)
      | (false, tr1) => (.ret true, tr1)

/-! ## `float32` -/

/-- The canonical encodings: 24-bit significand, exponent range of binary32, and the
significand normalised unless the value is subnormal. -/
def F32.Canonical : F32 → Prop
  | .nan => True
  | .inf _ => True
  | .fin _ m e => m < 16777216 ∧ -149 ≤ e ∧ e ≤ 104 ∧ (8388608 ≤ m ∨ e = -149)

instance (x : F32) : Decidable x.Canonical := by
  cases x <;> unfold F32.Canonical <;> infer_instance

/-- The exact value of a finite float as a rational number (0 for nan and inf). -/
def F32.toRat : F32 → ℚ
  | .fin neg m e => (if neg then -1 else 1) * (m : ℚ) * (2 : ℚ) ^ e
  | _ => 0

/-- The integer part of the magnitude `m * 2^e`. -/
def truncMag (m : Nat) (e : Int) : Nat :=
  if 0 ≤ e then m * 2 ^ e.toNat else m / 2 ^ (-e).toNat

/-- Comparison `x < 0.0`. -/
def F32.ltZero : F32 → Bool
  | .nan => false
  | .inf neg => neg
  | .fin neg m _ => neg && decide (m ≠ 0)

/-- Comparison `x > k` for a natural number constant `k` (exactly representable). -/
def F32.gtNat (k : Nat) : F32 → Bool
  | .nan => false
  | .inf neg => !neg
  | .fin neg m e =>
    !neg && (if 0 ≤ e then decide (k < m * 2 ^ e.toNat) else decide (k * 2 ^ (-e).toNat < m))

/-- The conversion `uint16(x)`: truncation toward zero when the result is representable,
an implementation-dependent value otherwise. -/
def F32.toUint16 (undef : F32 → Nat) (x : F32) : Nat :=
  match x with
  | .fin neg m e =>
    if truncMag m e = 0 then 0
    else if neg = false ∧ truncMag m e < 65536 then truncMag m e
    else undef x % 65536
  | _ => undef x % 65536

/-- Number of low bits that do not fit a 24-bit significand, for `n < 2^28`. -/
def dropBits (n : Nat) : Nat :=
  if n < 16777216 then 0
  else if n < 33554432 then 1
  else if n < 67108864 then 2
  else if n < 134217728 then 3
  else 4

/-- The number `n * 2^e` (with `n < 2^28`, `-149 ≤ e`) rounded to binary32: to nearest,
ties to even; overflow gives infinity. -/
def roundF32 (neg : Bool) (n : Nat) (e : Int) : F32 :=
  let s := dropBits n
  let q := n / 2 ^ s
  let r := n % 2 ^ s
  let q1 := if 2 ^ s < 2 * r ∨ (2 * r = 2 ^ s ∧ q % 2 = 1) then q + 1 else q
  let m1 := if q1 = 16777216 then 8388608 else q1
  let e1 := if q1 = 16777216 then e + s + 1 else e + s
  if 104 < e1 then .inf neg else .fin neg m1 e1

/-- The product `x * 10.0` in `float32`, for canonical `x`: one IEEE 754 binary32
multiplication (the constant 10.0 takes the type of `speed`), correctly rounded. -/
def F32.mul10 : F32 → F32
  | .nan => .nan
  | .inf neg => .inf neg
  | .fin neg m e => roundF32 neg (10 * m) e

/-- Line 207 of the source: `uint16(speed)<<8 + uint16(speed*10.0)%10` in `uint16`. -/
def encodeSpeed (undef : F32 → Nat) (speed : F32) : Nat :=
  ((speed.toUint16 undef * 256) % 65536 + (speed.mul10.toUint16 undef) % 10) % 65536

/-- Source lines 194-224. -/
def DFMotor.MotorMovement (env : Env) (drv : Option DFMotor) (id direction : Nat) (speed : F32)
    (tr : Trace) : Outcome Bool × Trace :=
  if direction ≠ CW ∧ direction ≠ CCW then (.ret false, tr)
  else if speed.ltZero = true ∨ speed.gtNat 100 = true then (.ret false, tr)
  else
    match busOf drv with
    | none => (.nilDeref, tr)
    | some bus =>
      let reg := add8 _REG_MOTOR1_ORIENTATION (mul8 (sub8 id 1) 3)
      match I2C.WriteRegU8 env bus reg direction tr with
      | (true, tr1) => (.ret false, tr1)
      | (false, tr1) =>
        let sp := encodeSpeed env.convUndef speed
        match I2C.WriteRegU16BE env bus (add8 reg 1) sp tr1 with
        | (true, tr2) => (.ret false, tr2)
        | (false, tr2) => (.ret true, tr2)

/-- Source lines 88-118. The result is the returned pointer: `none` is `nil`. The deferred
function closes the connection when `succesfull` is false; it does not run when the logger
terminates the process. -/
def New (env : Env) (addr : Nat) (tr : Trace) : Outcome (Option DFMotor) × Trace :=
  match NewI2C env addr 1 tr with
  | (none, tr1) => (.ret none, tr1)
  | (some bus, tr1) =>
    let drv : DFMotor := ⟨some bus, addr⟩
    Outcome.andThen (checkBoard env drv.i2cbus tr1) fun ok tr2 =>
      if ok = false then
        if env.fatalExits then (.exited, tr2)
        else (.ret none, I2C.Close env bus tr2)
      else
        let tr3 := (I2C.WriteRegU8 env bus _REG_CTRL_MODE 0 tr2).2
        Outcome.andThen (DFMotor.MotorStop env (some drv) M1 tr3) fun _ tr4 =>
        Outcome.andThen (DFMotor.MotorStop env (some drv) M2 tr4) fun _ tr5 =>
        Outcome.andThen (DFMotor.SetEncoderDisable env (some drv) M1 tr5) fun _ tr6 =>
        Outcome.andThen (DFMotor.SetEncoderDisable env (some drv) M2 tr6) fun _ tr7 =>
        (.ret (some drv), tr7)

/-- Source lines 120-127. The method has no result; the value returned here is the
receiver after the call (`none` is a nil receiver), whose `i2cbus` field the method
clears. -/
def DFMotor.Close (env : Env) (drv : Option DFMotor) (tr : Trace) :
    Outcome (Option DFMotor) × Trace :=
  match drv with
  | none => (.ret none, tr)
  | some d =>
    match d.i2cbus with
    | none => (.ret (some d), tr)
    | some bus =>
      Outcome.andThen (DFMotor.MotorStop env (some d) M1 tr) fun _ tr1 =>
      Outcome.andThen (DFMotor.MotorStop env (some d) M2 tr1) fun _ tr2 =>
      (.ret (some ⟨none, d.Addr⟩), I2C.Close env bus tr2)

/-- Source lines 240-252; `addr` is a byte. The result pairs the returned boolean with the
receiver after the call: the method assigns to no field of the receiver. -/
def DFMotor.SetAddr (env : Env) (drv : Option DFMotor) (addr : Nat) (tr : Trace) :
    Outcome (Bool × Option DFMotor) × Trace :=
  if addr < 1 ∨ addr > 127 then (.ret (false, drv), tr)
  else
    match busOf drv with
    | none => (.nilDeref, tr)
    | some bus =>
      match I2C.WriteRegU8 env bus _REG_SLAVE_ADDR addr tr with
      | (true, tr1) => (.ret (false, drv), tr1)
      | (false, tr1) => (.ret (true, drv), tr1)

/-- The loop of `Detecte` (source lines 256-264), entered with the loop variable `addr`
(a `uint8`, incremented modulo 256) and the list collected so far. -/
def Detecte.loop (env : Env) (addr : Nat) (addrList : List Nat) (tr : Trace) :
    Outcome (List Nat) × Trace :=
  if addr < 128 then
    match NewI2C env addr 1 tr with
    | (some i2cbus, tr1) =>
      match checkBoard env (some i2cbus) tr1 with
      | (.ret ok, tr2) =>
        Detecte.loop env ((addr + 1) % 256) (if ok = true then addrList ++ [addr] else addrList)
          (I2C.Close env i2cbus tr2)
      | (.nilDeref, tr2) => (.nilDeref, tr2)
      | (.exited, tr2) => (.exited, tr2)
    | (none, tr1) => Detecte.loop env ((addr + 1) % 256) addrList tr1
  else (.ret addrList, tr)
termination_by 128 - addr
decreasing_by all_goals omega

/-- Source lines 254-266. -/
def Detecte (env : Env) (tr : Trace) : Outcome (List Nat) × Trace :=
  Detecte.loop env 1 [] tr

/-! ## Auxiliary functions used to state and prove the properties -/

/-- One visit of the scan at address `addr`, started after the history `tr`: whether the
address is validated (the open succeeds and `checkBoard` returns true), and the history
after the visit. -/
def scanVisit (env : Env) (addr : Nat) (tr : Trace) : Bool × Trace :=
  if env.fails tr (.newI2C addr 1) = true then (false, tr ++ [.newI2C addr 1])
  else
    (decide ((checkBoard env (some ⟨addr, 1⟩) (tr ++ [.newI2C addr 1])).1 = .ret true),
      (checkBoard env (some ⟨addr, 1⟩) (tr ++ [.newI2C addr 1])).2 ++ [.close ⟨addr, 1⟩])

/-- The visits of `n` consecutive addresses from `addr` on, started after the history `tr`:
the validated addresses in order of visit, and the history after the last visit. -/
def scanFrom (env : Env) : Nat → Nat → Trace → List Nat × Trace
  | 0, _, tr => ([], tr)
  | n + 1, addr, tr =>
    ((if (scanVisit env addr tr).1 = true then [addr] else []) ++
        (scanFrom env n (addr + 1) (scanVisit env addr tr).2).1,
      (scanFrom env n (addr + 1) (scanVisit env addr tr).2).2)

/-- Is the operation an attempt to open a connection? -/
def BusOp.isOpen : BusOp → Bool
  | .newI2C _ _ => true
  | _ => false

/-- Rounding of `n` to a multiple of `p`: to nearest, ties to the even multiple. -/
def roundNat (p n : Nat) : Nat :=
  if p < 2 * (n % p) ∨ (2 * (n % p) = p ∧ n / p % 2 = 1) then (n / p + 1) * p else n / p * p

/-- The significand product `n` rounded to 24 significant bits, as a natural number. -/
def roundedNum (n : Nat) : Nat := roundNat (2 ^ dropBits n) n

/-! ## Concrete environments used to instantiate the theorems -/

/-- A transport on which every operation succeeds and every read delivers 0. -/
def envQuiet : Env :=
  { fails := fun _ _ => false, data := fun _ _ => 0, fatalExits := false, convUndef := fun _ => 0 }

/-- A transport with a compatible board: the identity registers deliver 0xDF and 0x10. -/
def envBoard : Env :=
  { fails := fun _ _ => false
    data := fun _ op =>
      match op with
      | .readRegU8 _ reg => if reg = 1 then 0xdf else if reg = 2 then 0x10 else 0
      | _ => 0
    fatalExits := false
    convUndef := fun _ => 0 }

/-- A transport without a board (every register access fails) under a logger whose
`Fatal` returns to its caller. -/
def envAbsent : Env :=
  { fails := fun _ op =>
      match op with
      | .newI2C _ _ => false
      | _ => true
    data := fun _ _ => 0
    fatalExits := false
    convUndef := fun _ => 0 }

/-- A transport without a board (every register access fails) under a logger whose
`Fatal` terminates the process, as the `Fatal` of go-logger does. -/
def envAbsentFatal : Env :=
  { fails := fun _ op =>
      match op with
      | .newI2C _ _ => false
      | _ => true
    data := fun _ _ => 0
    fatalExits := true
    convUndef := fun _ => 0 }

/-- The controller opened at address 0x10 on bus 1. -/
def drv10 : Option DFMotor := some ⟨some ⟨0x10, 1⟩, 0x10⟩

/-! ## Auxiliary facts -/

theorem decodeSpeed_eq (r : Nat) (hr : r < 65536) :
    decodeSpeed r = if r < 32768 then (r : Int) else (r : Int) - 65536 := by
  unfold decodeSpeed int32OfUint32
  split <;> split <;> split <;> omega

theorem magnitude_eq (m : Nat) (e : Int) :
    (m : ℚ) * (2 : ℚ) ^ e =
      if 0 ≤ e then ((m * 2 ^ e.toNat : Nat) : ℚ) else (m : ℚ) / ((2 ^ (-e).toNat : Nat) : ℚ) := by
  split
  · rename_i h
    obtain ⟨n, rfl⟩ := Int.eq_ofNat_of_zero_le h
    simp
  · rename_i h
    obtain ⟨n, hn⟩ := Int.eq_ofNat_of_zero_le (show 0 ≤ -e by omega)
    have he : e = -(n : Int) := by omega
    subst he
    simp [div_eq_mul_inv]

theorem F32.ltZero_iff (neg : Bool) (m : Nat) (e : Int) :
    (F32.fin neg m e).ltZero = true ↔ (F32.fin neg m e).toRat < 0 := by
  have h2 : (0 : ℚ) < (2 : ℚ) ^ e := by positivity
  cases neg
  · simp only [F32.ltZero, F32.toRat, Bool.false_and, Bool.false_eq_true, false_iff, not_lt,
      if_false, one_mul]
    positivity
  · simp only [F32.ltZero, F32.toRat, Bool.true_and, decide_eq_true_eq, if_true]
    constructor
    · intro hm
      have : (0 : ℚ) < m := by exact_mod_cast Nat.pos_of_ne_zero hm
      nlinarith [mul_pos this h2]
    · intro h hm
      subst hm
      simp at h

theorem F32.gtNat_iff (k : Nat) (neg : Bool) (m : Nat) (e : Int) :
    (F32.fin neg m e).gtNat k = true ↔ (k : ℚ) < (F32.fin neg m e).toRat := by
  have h2 : (0 : ℚ) < (2 : ℚ) ^ e := by positivity
  cases neg
  · simp only [F32.gtNat, F32.toRat, Bool.not_false, Bool.true_and, Bool.false_eq_true, if_false,
      one_mul]
    rw [magnitude_eq]
    split
    · simp only [decide_eq_true_eq]
      exact Nat.cast_lt.symm
    · simp only [decide_eq_true_eq]
      have hp : (0 : ℚ) < ((2 ^ (-e).toNat : Nat) : ℚ) := by positivity
      rw [lt_div_iff₀ hp]
      exact_mod_cast Iff.rfl
  · simp only [F32.gtNat, F32.toRat, Bool.not_true, Bool.false_and, Bool.false_eq_true, if_true,
      false_iff, not_lt]
    have : (0 : ℚ) ≤ (m : ℚ) * (2 : ℚ) ^ e := by positivity
    have hk : (0 : ℚ) ≤ k := Nat.cast_nonneg k
    linarith

theorem truncMag_eq_floor (m : Nat) (e : Int) :
    truncMag m e = ⌊(m : ℚ) * (2 : ℚ) ^ e⌋₊ := by
  rw [magnitude_eq]
  unfold truncMag
  split
  · exact (Nat.floor_natCast _).symm
  · exact (Nat.floor_div_eq_div _ _).symm

/-! ## Identity validation -/

/-- C1: `checkBoard` on an open connection always returns a boolean, and it returns true
exactly when the read of register 0x01 succeeds, the subsequent read of register 0x02
succeeds, the first byte is 0xDF and the second byte is 0x10. -/
theorem checkBoard_iff_identity (env : Env) (bus : I2C) (tr : Trace) :
    (checkBoard env (some bus) tr).1 =
      .ret (decide (env.fails tr (.readRegU8 bus 0x01) = false ∧
        env.fails (tr ++ [.readRegU8 bus 0x01]) (.readRegU8 bus 0x02) = false ∧
        env.data tr (.readRegU8 bus 0x01) % 256 = 0xDF ∧
        env.data (tr ++ [.readRegU8 bus 0x01]) (.readRegU8 bus 0x02) % 256 = 0x10)) := by
  unfold checkBoard I2C.ReadRegU8
  simp only [_REG_PID, _REG_PVD, _REG_DEF_PID, _REG_DEF_VID]
  cases h1 : env.fails tr (.readRegU8 bus 0x01) <;>
    cases h2 : env.fails (tr ++ [.readRegU8 bus 0x01]) (.readRegU8 bus 0x02) <;>
    by_cases h3 : env.data tr (.readRegU8 bus 0x01) % 256 = 0xDF <;>
    by_cases h4 : env.data (tr ++ [.readRegU8 bus 0x01]) (.readRegU8 bus 0x02) % 256 = 0x10 <;>
    simp [h1, h2, h3, h4]

/-! ## Encoder speed -/

/-- C3: when the read of the encoder-speed register succeeds with raw word `r`,
`GetEncoderSpeed` returns `r` if `r < 0x8000` and `r - 0x10000` otherwise; the decoded value
lies in [-32768, 32767]; and decoding the two's-complement encoding `x mod 0x10000` of any
`x` in [-32768, 32767] gives back `x`. -/
theorem GetEncoderSpeed_twos_complement (env : Env) (bus : I2C) (a id : Nat) (tr : Trace)
    (x : Int)
    (hread : env.fails tr
      (.readRegU16BE bus (add8 _REG_ENCODER1_SPPED (mul8 5 (sub8 id 1)))) = false)
    (hx : -32768 ≤ x ∧ x ≤ 32767) :
    (DFMotor.GetEncoderSpeed env (some ⟨some bus, a⟩) id tr).1 =
      .ret (if env.data tr
              (.readRegU16BE bus (add8 _REG_ENCODER1_SPPED (mul8 5 (sub8 id 1)))) % 65536 < 0x8000
        then ((env.data tr
              (.readRegU16BE bus (add8 _REG_ENCODER1_SPPED (mul8 5 (sub8 id 1)))) % 65536 : Nat)
                : Int)
        else ((env.data tr
              (.readRegU16BE bus (add8 _REG_ENCODER1_SPPED (mul8 5 (sub8 id 1)))) % 65536 : Nat)
                : Int) - 0x10000) ∧
    (∀ r : Nat, r < 65536 → -32768 ≤ decodeSpeed r ∧ decodeSpeed r ≤ 32767) ∧
    decodeSpeed (x % 65536).toNat = x := by
  refine ⟨?_, ?_, ?_⟩
  · unfold DFMotor.GetEncoderSpeed I2C.ReadRegU16BE
    simp only [busOf, hread]
    simp [decodeSpeed_eq _ (Nat.mod_lt _ (by norm_num : 65536 > 0))]
  · intro r hr
    rw [decodeSpeed_eq r hr]
    split <;> omega
  · have h0 : 0 ≤ x % 65536 := Int.emod_nonneg x (by norm_num)
    have h1 : x % 65536 < 65536 := Int.emod_lt_of_pos x (by norm_num)
    have h2 : ((x % 65536).toNat : Int) = x % 65536 := Int.toNat_of_nonneg h0
    rw [decodeSpeed_eq _ (by omega)]
    split <;> omega

/-- Instance of C3: raw word 0xFFFE on channel 1 decodes to -2, and -2 round-trips. -/
theorem GetEncoderSpeed_twos_complement_witness :
    decodeSpeed 0xFFFE = -2 ∧ decodeSpeed ((-2 : Int) % 65536).toNat = -2 :=
  ⟨by decide,
    (GetEncoderSpeed_twos_complement envQuiet ⟨0x10, 1⟩ 0x10 M1 [] (-2) rfl
      ⟨by decide, by decide⟩).2.2⟩

/-! ## Encoder reduction ratio -/

/-- C8: on an open controller and for channel 1 or 2, `SetEncoderReductionRatio` returns
false without any bus operation when the ratio is outside [1, 2000]; otherwise it issues
exactly one 16-bit write of the unchanged ratio to register 0x07 + 5*(N-1) and returns
true exactly when the write succeeds. -/
theorem SetEncoderReductionRatio_contract (env : Env) (bus : I2C) (a id ratio : Nat)
    (tr : Trace) (hid : id = 1 ∨ id = 2) :
    DFMotor.SetEncoderReductionRatio env (some ⟨some bus, a⟩) id ratio tr =
      if ratio < 1 ∨ 2000 < ratio then (.ret false, tr)
      else (.ret (!env.fails tr (.writeRegU16BE bus (0x07 + 5 * (id - 1)) ratio)),
            tr ++ [.writeRegU16BE bus (0x07 + 5 * (id - 1)) ratio]) := by
  unfold DFMotor.SetEncoderReductionRatio I2C.WriteRegU16BE
  have hreg : add8 _REG_ENCODER1_REDUCTION_RATIO (mul8 5 (sub8 id 1)) = 0x07 + 5 * (id - 1) := by
    rcases hid with h | h <;> subst h <;> decide
  simp only [busOf, hreg, gt_iff_lt]
  split
  · rfl
  · cases env.fails tr (.writeRegU16BE bus (0x07 + 5 * (id - 1)) ratio) <;> rfl

/-- Instance of C8: ratio 2000 on channel 2 is written unchanged to register 0x0C; on the
same channel 0 and 2001 are rejected with an unchanged trace and 1 is accepted. -/
theorem SetEncoderReductionRatio_contract_witness :
    DFMotor.SetEncoderReductionRatio envQuiet drv10 2 2000 [] =
        (.ret true, [.writeRegU16BE ⟨0x10, 1⟩ 0x0C 2000]) ∧
    DFMotor.SetEncoderReductionRatio envQuiet drv10 2 0 [] = (.ret false, []) ∧
    DFMotor.SetEncoderReductionRatio envQuiet drv10 2 2001 [] = (.ret false, []) ∧
    DFMotor.SetEncoderReductionRatio envQuiet drv10 2 1 [] =
        (.ret true, [.writeRegU16BE ⟨0x10, 1⟩ 0x0C 1]) :=
  ⟨(SetEncoderReductionRatio_contract envQuiet ⟨0x10, 1⟩ 0x10 2 2000 [] (Or.inr rfl)).trans
      (by decide),
    by decide, by decide, by decide⟩

/-! ## PWM frequency -/

/-- C9: on an open controller and for every integer frequency, `SetMoterPwmFrequency`
returns false and leaves the trace unchanged when the frequency is outside [100, 12750];
otherwise it appends exactly one operation, a single-byte write, and returns true exactly
when that write succeeds. -/
theorem SetMoterPwmFrequency_contract (env : Env) (bus : I2C) (a : Nat) (f : Int) (tr : Trace) :
    ((f < 100 ∨ 12750 < f) ∧
      DFMotor.SetMoterPwmFrequency env (some ⟨some bus, a⟩) f tr = (.ret false, tr)) ∨
    ((100 ≤ f ∧ f ≤ 12750) ∧ ∃ reg v : Nat,
      DFMotor.SetMoterPwmFrequency env (some ⟨some bus, a⟩) f tr =
        (.ret (!env.fails tr (.writeRegU8 bus reg v)), tr ++ [.writeRegU8 bus reg v])) := by
  unfold DFMotor.SetMoterPwmFrequency I2C.WriteRegU8
  by_cases h : f < 100 ∨ f > 12750
  · left
    exact ⟨h, by simp [h]⟩
  · right
    refine ⟨by omega, _REG_CTRL_MODE, byteOfInt (goDiv f 50), ?_⟩
    simp only [busOf, h, if_false]
    cases env.fails tr (.writeRegU8 bus _REG_CTRL_MODE (byteOfInt (goDiv f 50))) <;> rfl

/-- C10: for every accepted frequency `f` in [100, 12750] the only operation issued is a
write to register 0x03 of the byte `f / 50`, and `2 ≤ f / 50 ≤ 255`, so the conversion to a
byte loses nothing. -/
theorem SetMoterPwmFrequency_byte (env : Env) (bus : I2C) (a : Nat) (f : Int) (tr : Trace)
    (hf : 100 ≤ f ∧ f ≤ 12750) :
    (DFMotor.SetMoterPwmFrequency env (some ⟨some bus, a⟩) f tr).2 =
      tr ++ [.writeRegU8 bus 0x03 (f / 50).toNat] ∧
    2 ≤ (f / 50).toNat ∧ (f / 50).toNat ≤ 255 := by
  have hdiv : goDiv f 50 = f / 50 := Int.tdiv_eq_ediv (by omega) (by norm_num)
  have hbyte : byteOfInt (goDiv f 50) = (f / 50).toNat := by
    unfold byteOfInt
    rw [hdiv]
    congr 1
    omega
  refine ⟨?_, by omega, by omega⟩
  unfold DFMotor.SetMoterPwmFrequency I2C.WriteRegU8
  have h : ¬ (f < 100 ∨ f > 12750) := by omega
  simp only [busOf, h, if_false, hbyte, _REG_CTRL_MODE]
  cases env.fails tr (.writeRegU8 bus 0x03 (f / 50).toNat) <;> rfl

/-- Instance of C10: 100 writes 2, 3000 writes 60 and 12750 writes 255 to register 0x03. -/
theorem SetMoterPwmFrequency_byte_witness :
    (DFMotor.SetMoterPwmFrequency envQuiet drv10 3000 []).2 = [.writeRegU8 ⟨0x10, 1⟩ 0x03 60] ∧
    (DFMotor.SetMoterPwmFrequency envQuiet drv10 100 []).2 = [.writeRegU8 ⟨0x10, 1⟩ 0x03 2] ∧
    (DFMotor.SetMoterPwmFrequency envQuiet drv10 12750 []).2 =
      [.writeRegU8 ⟨0x10, 1⟩ 0x03 255] :=
  ⟨(SetMoterPwmFrequency_byte envQuiet ⟨0x10, 1⟩ 0x10 3000 [] ⟨by decide, by decide⟩).1,
    by decide, by decide⟩

/-! ## Motor movement -/

theorem MotorMovement_guard_pass (neg : Bool) (m : Nat) (e : Int)
    (h0 : 0 ≤ (F32.fin neg m e).toRat) (h100 : (F32.fin neg m e).toRat ≤ 100) :
    ¬ ((F32.fin neg m e).ltZero = true ∨ (F32.fin neg m e).gtNat 100 = true) := by
  rw [F32.ltZero_iff, F32.gtNat_iff]
  push_cast
  intro h
  rcases h with h | h <;> linarith

theorem motorReg_eq (id : Nat) (hid : id = 1 ∨ id = 2) :
    add8 _REG_MOTOR1_ORIENTATION (mul8 (sub8 id 1) 3) = 0x0F + 3 * (id - 1) ∧
    add8 (0x0F + 3 * (id - 1)) 1 = 0x10 + 3 * (id - 1) := by
  rcases hid with h | h <;> subst h <;> decide

/-- C4: for every controller (open, closed or nil), channel, direction and `float32` duty
cycle, a direction other than CW and CCW (STOP included), a duty cycle below 0 or a duty
cycle above 100 makes `MotorMovement` return false with the trace of bus operations
unchanged. -/
theorem MotorMovement_rejects (env : Env) (drv : Option DFMotor) (id direction : Nat)
    (speed : F32) (tr : Trace)
    (h : (direction ≠ CW ∧ direction ≠ CCW) ∨ speed.toRat < 0 ∨ 100 < speed.toRat ∨
      speed = .inf true ∨ speed = .inf false) :
    DFMotor.MotorMovement env drv id direction speed tr = (.ret false, tr) := by
  unfold DFMotor.MotorMovement
  by_cases hd : direction ≠ CW ∧ direction ≠ CCW
  · simp [hd]
  · have hs : speed.ltZero = true ∨ speed.gtNat 100 = true := by
      rcases h with h | h | h | h | h
      · exact absurd h hd
      · cases speed with
        | nan => simp [F32.toRat] at h
        | inf b => simp [F32.toRat] at h
        | fin neg m e => exact Or.inl ((F32.ltZero_iff neg m e).2 h)
      · cases speed with
        | nan => norm_num [F32.toRat] at h
        | inf b => norm_num [F32.toRat] at h
        | fin neg m e => exact Or.inr ((F32.gtNat_iff 100 neg m e).2 (by exact_mod_cast h))
      · subst h; exact Or.inl rfl
      · subst h; exact Or.inr rfl
    rw [if_neg hd, if_pos hs]

/-- Instance of C4: direction STOP with duty 50.0 (= 13107200 * 2^-18) on the open
controller, and direction CW with duty 100.5 (= 13172736 * 2^-17), are rejected without
bus traffic. -/
theorem MotorMovement_rejects_witness :
    DFMotor.MotorMovement envQuiet drv10 M1 STOP (.fin false 13107200 (-18)) [] =
      (.ret false, []) ∧
    DFMotor.MotorMovement envQuiet drv10 M1 CW (.fin false 13172736 (-17)) [] =
      (.ret false, []) :=
  ⟨MotorMovement_rejects envQuiet drv10 M1 STOP (.fin false 13107200 (-18)) []
      (Or.inl (by decide)),
    by decide⟩

/-- What `MotorMovement` does on an open controller once its guards are passed. -/
theorem MotorMovement_open_eq (env : Env) (bus : I2C) (a id direction : Nat)
    (neg : Bool) (m : Nat) (e : Int) (tr : Trace)
    (hid : id = 1 ∨ id = 2) (hdir : direction = 0x01 ∨ direction = 0x02)
    (h0 : 0 ≤ (F32.fin neg m e).toRat) (h100 : (F32.fin neg m e).toRat ≤ 100) :
    DFMotor.MotorMovement env (some ⟨some bus, a⟩) id direction (.fin neg m e) tr =
      if env.fails tr (.writeRegU8 bus (0x0F + 3 * (id - 1)) direction) = true then
        (.ret false, tr ++ [.writeRegU8 bus (0x0F + 3 * (id - 1)) direction])
      else
        (.ret (!env.fails (tr ++ [.writeRegU8 bus (0x0F + 3 * (id - 1)) direction])
            (.writeRegU16BE bus (0x10 + 3 * (id - 1))
              (encodeSpeed env.convUndef (.fin neg m e)))),
          tr ++ [.writeRegU8 bus (0x0F + 3 * (id - 1)) direction,
            .writeRegU16BE bus (0x10 + 3 * (id - 1))
              (encodeSpeed env.convUndef (.fin neg m e))]) := by
  unfold DFMotor.MotorMovement I2C.WriteRegU8 I2C.WriteRegU16BE
  have hd : ¬ (direction ≠ CW ∧ direction ≠ CCW) := by
    rcases hdir with h | h <;> subst h <;> decide
  rw [if_neg hd, if_neg (MotorMovement_guard_pass neg m e h0 h100)]
  simp only [busOf, (motorReg_eq id hid).1, (motorReg_eq id hid).2]
  cases h1 : env.fails tr (.writeRegU8 bus (0x0F + 3 * (id - 1)) direction)
  · cases h2 : env.fails (tr ++ [.writeRegU8 bus (0x0F + 3 * (id - 1)) direction])
        (.writeRegU16BE bus (0x10 + 3 * (id - 1)) (encodeSpeed env.convUndef (.fin neg m e)))
    · simp [h2]
    · simp [h2]
  · simp

/-- C5: for channel 1 or 2, direction CW or CCW and a finite duty cycle in [0, 100],
`MotorMovement` on an open controller first writes the direction byte to the orientation
register 0x0F + 3*(N-1); if that write fails it returns false without a second operation;
otherwise it writes the encoded duty word to register 0x10 + 3*(N-1) and returns true
exactly when this second write succeeds. -/
theorem MotorMovement_sequence (env : Env) (bus : I2C) (a id direction : Nat)
    (neg : Bool) (m : Nat) (e : Int) (tr : Trace)
    (hid : id = 1 ∨ id = 2) (hdir : direction = 0x01 ∨ direction = 0x02)
    (h0 : 0 ≤ (F32.fin neg m e).toRat) (h100 : (F32.fin neg m e).toRat ≤ 100) :
    DFMotor.MotorMovement env (some ⟨some bus, a⟩) id direction (.fin neg m e) tr =
      if env.fails tr (.writeRegU8 bus (0x0F + 3 * (id - 1)) direction) = true then
        (.ret false, tr ++ [.writeRegU8 bus (0x0F + 3 * (id - 1)) direction])
      else
        (.ret (!env.fails (tr ++ [.writeRegU8 bus (0x0F + 3 * (id - 1)) direction])
            (.writeRegU16BE bus (0x10 + 3 * (id - 1))
              (encodeSpeed env.convUndef (.fin neg m e)))),
          tr ++ [.writeRegU8 bus (0x0F + 3 * (id - 1)) direction,
            .writeRegU16BE bus (0x10 + 3 * (id - 1))
              (encodeSpeed env.convUndef (.fin neg m e))]) :=
  MotorMovement_open_eq env bus a id direction neg m e tr hid hdir h0 h100

/-- Instance of C5: `MotorMovement(M1, CW, 50.0)`, with 50.0 = 13107200 * 2^-18, writes
0x01 to register 0x0F and then 0x3200 to register 0x10. -/
theorem MotorMovement_sequence_witness :
    DFMotor.MotorMovement envQuiet drv10 M1 CW (.fin false 13107200 (-18)) [] =
      (.ret true, [.writeRegU8 ⟨0x10, 1⟩ 0x0F 0x01, .writeRegU16BE ⟨0x10, 1⟩ 0x10 0x3200]) :=
  (MotorMovement_sequence envQuiet ⟨0x10, 1⟩ 0x10 M1 CW false 13107200 (-18) []
    (Or.inl rfl) (Or.inl rfl)
    (by simp only [F32.toRat]; norm_num) (by simp only [F32.toRat]; norm_num)).trans
    (by decide)

/-! ## Duty-cycle encoding -/

theorem dropBits_quot_lt (n : Nat) (hn : n < 268435456) : n / 2 ^ dropBits n < 16777216 := by
  unfold dropBits
  split
  · simpa using ‹n < 16777216›
  · split
    · norm_num; omega
    · split
      · norm_num; omega
      · split
        · norm_num; omega
        · norm_num; omega

theorem dropBits_le (n : Nat) : dropBits n ≤ 4 := by
  unfold dropBits
  split_ifs <;> omega

/-- A canonical float of magnitude at most 100 has exponent at most -17. -/
theorem exponent_le_of_le_100 (neg : Bool) (m : Nat) (e : Int)
    (hc : (F32.fin neg m e).Canonical) (h : (F32.fin neg m e).gtNat 100 = false)
    (hneg : neg = false) : e ≤ -17 := by
  subst hneg
  obtain ⟨_, _, _, hn⟩ := hc
  rcases hn with hn | hn
  · by_contra hcon
    simp only [F32.gtNat, Bool.not_false, Bool.true_and] at h
    split at h
    · rename_i he
      have h1 : ¬ (100 < m * 2 ^ e.toNat) := by simpa using h
      have h2 : 1 ≤ 2 ^ e.toNat := Nat.one_le_two_pow
      have h3 : m * 1 ≤ m * 2 ^ e.toNat := Nat.mul_le_mul_left m h2
      omega
    · rename_i he
      have h1 : ¬ (100 * 2 ^ (-e).toNat < m) := by simpa using h
      have h2 : 2 ^ (-e).toNat ≤ 2 ^ 16 := Nat.pow_le_pow_right (by norm_num) (by omega)
      have h3 : (2 : Nat) ^ 16 = 65536 := by norm_num
      omega
  · omega

theorem truncMag_small (m : Nat) (e : Int) (hm : m < 16777216) (he : e ≤ -12) :
    truncMag m e < 65536 := by
  unfold truncMag
  rw [if_neg (by omega)]
  have h2 : 2 ^ 12 ≤ 2 ^ (-e).toNat := Nat.pow_le_pow_right (by norm_num) (by omega)
  have h3 : (2 : Nat) ^ 12 = 4096 := by norm_num
  have h4 : m / 2 ^ (-e).toNat ≤ m / 2 ^ 12 := Nat.div_le_div_left h2 (by norm_num)
  omega

theorem roundF32_shape (neg : Bool) (n : Nat) (e : Int) (hn : n < 268435456) (he : e ≤ -17) :
    ∃ m1 e1, roundF32 neg n e = .fin neg m1 e1 ∧ m1 < 16777216 ∧ e1 ≤ -12 ∧
      (n = 0 → m1 = 0) := by
  have hq := dropBits_quot_lt n hn
  have hs := dropBits_le n
  have hq0 : n = 0 → n / 2 ^ dropBits n = 0 := fun h => by rw [h]; exact Nat.zero_div _
  have hr0 : n = 0 → n % 2 ^ dropBits n = 0 := fun h => by rw [h]; exact Nat.zero_mod _
  have hp : 0 < 2 ^ dropBits n := Nat.two_pow_pos _
  unfold roundF32
  simp only []
  generalize n / 2 ^ dropBits n = q at *
  generalize n % 2 ^ dropBits n = r at *
  generalize 2 ^ dropBits n = p at *
  generalize dropBits n = s at *
  split_ifs <;> first
    | omega
    | exact ⟨_, _, rfl, by omega, by omega, by omega⟩

theorem toUint16_eq_floor (undef : F32 → Nat) (neg : Bool) (m : Nat) (e : Int)
    (hlt : truncMag m e < 65536) (hneg : neg = true → m = 0) :
    (F32.fin neg m e).toUint16 undef = ⌊(F32.fin neg m e).toRat⌋₊ := by
  cases neg
  · simp only [F32.toUint16, F32.toRat, Bool.false_eq_true, if_false, one_mul, true_and]
    rw [← truncMag_eq_floor]
    split_ifs <;> omega
  · have hm := hneg rfl
    subst hm
    have h0 : truncMag 0 e = 0 := by unfold truncMag; split <;> simp
    simp [F32.toUint16, F32.toRat, h0]

/-- The word written for an accepted canonical duty cycle: integer part in the high
byte, integer part of the rounded tenfold in the low byte. -/
theorem encodeSpeed_eq (undef : F32 → Nat) (neg : Bool) (m : Nat) (e : Int)
    (hc : (F32.fin neg m e).Canonical)
    (h0 : 0 ≤ (F32.fin neg m e).toRat) (h100 : (F32.fin neg m e).toRat ≤ 100) :
    encodeSpeed undef (.fin neg m e) =
      ⌊(F32.fin neg m e).toRat⌋₊ * 256 + ⌊(F32.fin neg m e).mul10.toRat⌋₊ % 10 ∧
    ⌊(F32.fin neg m e).toRat⌋₊ ≤ 100 := by
  have hguard := MotorMovement_guard_pass neg m e h0 h100
  have hnegm : neg = true → m = 0 := by
    intro hn
    by_contra hm
    exact hguard (Or.inl (by simp [F32.ltZero, hn, hm]))
  have hgt : (F32.fin neg m e).gtNat 100 = false := by
    cases h : (F32.fin neg m e).gtNat 100
    · rfl
    · exact absurd (Or.inr h) hguard
  have he : e ≤ -17 := by
    cases neg
    · exact exponent_le_of_le_100 false m e hc hgt rfl
    · have hm := hnegm rfl
      obtain ⟨_, _, _, hn⟩ := hc
      omega
  have hm24 : m < 16777216 := hc.1
  have hfl : ⌊(F32.fin neg m e).toRat⌋₊ ≤ 100 := by
    have : ⌊(F32.fin neg m e).toRat⌋₊ ≤ ⌊(100 : ℚ)⌋₊ := Nat.floor_mono h100
    simpa using this
  have h1 : (F32.fin neg m e).toUint16 undef = ⌊(F32.fin neg m e).toRat⌋₊ :=
    toUint16_eq_floor undef neg m e (truncMag_small m e hm24 (by omega)) hnegm
  obtain ⟨m1, e1, hr, hm1, he1, hz⟩ := roundF32_shape neg (10 * m) e (by omega) he
  have h2 : (F32.fin neg m e).mul10.toUint16 undef = ⌊(F32.fin neg m e).mul10.toRat⌋₊ := by
    simp only [F32.mul10, hr]
    exact toUint16_eq_floor undef neg m1 e1 (truncMag_small m1 e1 hm1 he1)
      (fun hn => hz (by rw [hnegm hn]))
  refine ⟨?_, hfl⟩
  unfold encodeSpeed
  rw [h1, h2]
  omega

theorem dropBits_cases (n : Nat) (hn : n < 268435456) :
    (dropBits n = 0 ∧ n < 16777216) ∨ (dropBits n = 1 ∧ 16777216 ≤ n ∧ n < 33554432) ∨
    (dropBits n = 2 ∧ 33554432 ≤ n ∧ n < 67108864) ∨
    (dropBits n = 3 ∧ 67108864 ≤ n ∧ n < 134217728) ∨ (dropBits n = 4 ∧ 134217728 ≤ n) := by
  unfold dropBits
  split_ifs <;> omega

theorem fin_toRat_shift (neg : Bool) (m1 : Nat) (e : Int) (s : Nat) (n : Nat) (z : Int)
    (h : (m1 : Int) * 2 ^ s = n + z) :
    (F32.fin neg m1 (e + s)).toRat = (if neg then -1 else 1) * ((n : ℚ) + z) * (2 : ℚ) ^ e := by
  have h' : (m1 : ℚ) * 2 ^ s = n + z := by exact_mod_cast h
  simp only [F32.toRat]
  rw [zpow_add₀ (by norm_num : (2 : ℚ) ≠ 0), zpow_natCast, ← h']
  ring

/-- The result of rounding `n * 2^e` is `m1 * 2^(e + s)` with `m1 * 2^s` within 8 of `n`. -/
theorem roundF32_near (neg : Bool) (n : Nat) (e : Int) (hn : n < 268435456) (he : e ≤ -17) :
    ∃ (m1 s : Nat), roundF32 neg n e = .fin neg m1 (e + (s : Int)) ∧
      -8 ≤ (m1 : Int) * 2 ^ s - n ∧ (m1 : Int) * 2 ^ s - n ≤ 8 := by
  rcases dropBits_cases n hn with h | h | h | h | h
  all_goals
    obtain ⟨hs, hb⟩ := h
    unfold roundF32
    simp only [hs]
    norm_num
    split_ifs
    all_goals first
      | omega
      | (refine ⟨_, 0, by congr 1; all_goals omega, ?_, ?_⟩ <;> norm_num <;> omega)
      | (refine ⟨_, 1, by congr 1; all_goals omega, ?_, ?_⟩ <;> norm_num <;> omega)
      | (refine ⟨_, 2, by congr 1; all_goals omega, ?_, ?_⟩ <;> norm_num <;> omega)
      | (refine ⟨_, 3, by congr 1; all_goals omega, ?_, ?_⟩ <;> norm_num <;> omega)
      | (refine ⟨_, 4, by congr 1; all_goals omega, ?_, ?_⟩ <;> norm_num <;> omega)
      | (refine ⟨_, 5, by congr 1; all_goals omega, ?_, ?_⟩ <;> norm_num <;> omega)

/-- The `float32` product `x * 10.0` of a canonical `x` of magnitude at most 100 differs
from the exact product by at most 2^-14. -/
theorem mul10_error (neg : Bool) (m : Nat) (e : Int) (hm : m < 16777216) (he : e ≤ -17) :
    |(F32.fin neg m e).mul10.toRat - 10 * (F32.fin neg m e).toRat| ≤ 1 / 16384 := by
  obtain ⟨m1, s, hr, hlo, hhi⟩ := roundF32_near neg (10 * m) e (by omega) he
  have hz := fin_toRat_shift neg m1 e s (10 * m) ((m1 : Int) * 2 ^ s - (10 * m : Nat))
    (by push_cast; ring)
  simp only [F32.mul10, hr, hz]
  have hpow : (2 : ℚ) ^ e ≤ (2 : ℚ) ^ (-17 : Int) := zpow_le_zpow_right₀ (by norm_num) he
  have hpos : (0 : ℚ) < (2 : ℚ) ^ e := by positivity
  have h17 : (2 : ℚ) ^ (-17 : Int) = 1 / 131072 := by norm_num
  rw [h17] at hpow
  have hlo' : (-8 : ℚ) ≤ ((m1 : Int) * 2 ^ s - (10 * m : Nat) : Int) := by exact_mod_cast hlo
  have hhi' : (((m1 : Int) * 2 ^ s - (10 * m : Nat) : Int) : ℚ) ≤ 8 := by exact_mod_cast hhi
  generalize (((m1 : Int) * 2 ^ s - (10 * m : Nat) : Int) : ℚ) = z at hlo' hhi'
  simp only [F32.toRat]
  rw [abs_le]
  cases neg <;> simp only [if_true, if_false, Bool.false_eq_true] <;> push_cast <;>
    constructor <;> nlinarith

/-- An accepted canonical duty cycle has exponent at most -17. -/
theorem exponent_le_accepted (neg : Bool) (m : Nat) (e : Int)
    (hc : (F32.fin neg m e).Canonical)
    (h0 : 0 ≤ (F32.fin neg m e).toRat) (h100 : (F32.fin neg m e).toRat ≤ 100) : e ≤ -17 := by
  have hguard := MotorMovement_guard_pass neg m e h0 h100
  have hgt : (F32.fin neg m e).gtNat 100 = false := by
    cases h : (F32.fin neg m e).gtNat 100
    · rfl
    · exact absurd (Or.inr h) hguard
  cases neg
  · exact exponent_le_of_le_100 false m e hc hgt rfl
  · have hm : m = 0 := by
      by_contra hm
      exact hguard (Or.inl (by simp [F32.ltZero, hm]))
    obtain ⟨_, _, _, hn⟩ := hc
    omega

theorem floor_tenfold_mod (d : ℚ) (hd : 0 ≤ d) :
    ⌊10 * d⌋₊ % 10 = ⌊(d - ⌊d⌋₊) * 10⌋₊ % 10 := by
  have hf : 0 ≤ (d - ⌊d⌋₊) * 10 := by
    have := Nat.floor_le hd
    nlinarith
  have h : 10 * d = (d - ⌊d⌋₊) * 10 + ((10 * ⌊d⌋₊ : Nat) : ℚ) := by
    push_cast
    ring
  rw [h, Nat.floor_add_nat hf]
  omega

/-- C2 (amended): for channel 1 or 2, direction CW or CCW and every canonical `float32`
duty cycle `d` in [0, 100], when the two bus writes succeed (whatever any other bus
operation does) `MotorMovement` on an open controller writes to the speed register 0x10 + 3*(N-1) the word `floor(d) * 256 + floor(fl(10*d)) mod 10`, where
`fl(10*d)` is the `float32` product `d * 10.0` (the exact product rounded to nearest);
its high byte is `floor(d)` and its low byte is `floor(fl(10*d)) mod 10`, without carry.
The product `fl(10*d)` is within 2^-14 of `10*d`, and when it is exact the low byte is
`floor((d - floor(d)) * 10) mod 10`. -/
theorem MotorMovement_duty_word (env : Env) (bus : I2C) (a id direction : Nat)
    (neg : Bool) (m : Nat) (e : Int) (tr : Trace)
    (hid : id = 1 ∨ id = 2) (hdir : direction = 0x01 ∨ direction = 0x02)
    (hc : (F32.fin neg m e).Canonical)
    (h0 : 0 ≤ (F32.fin neg m e).toRat) (h100 : (F32.fin neg m e).toRat ≤ 100)
    (hw1 : env.fails tr (.writeRegU8 bus (0x0F + 3 * (id - 1)) direction) = false)
    (hw2 : env.fails (tr ++ [.writeRegU8 bus (0x0F + 3 * (id - 1)) direction])
      (.writeRegU16BE bus (0x10 + 3 * (id - 1))
        (encodeSpeed env.convUndef (.fin neg m e))) = false) :
    ∃ v : Nat,
      DFMotor.MotorMovement env (some ⟨some bus, a⟩) id direction (.fin neg m e) tr =
        (.ret true, tr ++ [.writeRegU8 bus (0x0F + 3 * (id - 1)) direction,
          .writeRegU16BE bus (0x10 + 3 * (id - 1)) v]) ∧
      v = ⌊(F32.fin neg m e).toRat⌋₊ * 256 + ⌊(F32.fin neg m e).mul10.toRat⌋₊ % 10 ∧
      v / 256 = ⌊(F32.fin neg m e).toRat⌋₊ ∧
      v % 256 = ⌊(F32.fin neg m e).mul10.toRat⌋₊ % 10 ∧
      v < 65536 ∧
      |(F32.fin neg m e).mul10.toRat - 10 * (F32.fin neg m e).toRat| ≤ 1 / 16384 ∧
      ((F32.fin neg m e).mul10.toRat = 10 * (F32.fin neg m e).toRat →
        v % 256 =
          ⌊((F32.fin neg m e).toRat - ⌊(F32.fin neg m e).toRat⌋₊) * 10⌋₊ % 10) := by
  obtain ⟨henc, hfl⟩ := encodeSpeed_eq env.convUndef neg m e hc h0 h100
  refine ⟨encodeSpeed env.convUndef (.fin neg m e), ?_, henc, ?_, ?_, ?_, ?_, ?_⟩
  · rw [MotorMovement_open_eq env bus a id direction neg m e tr hid hdir h0 h100]
    simp [hw1, hw2]
  · rw [henc]; omega
  · rw [henc]; omega
  · rw [henc]; omega
  · exact mul10_error neg m e hc.1 (exponent_le_accepted neg m e hc h0 h100)
  · intro hex
    rw [henc, ← floor_tenfold_mod _ h0, ← hex]
    omega

/-- Instance of C2 (amended): duty 50.0 (= 13107200 * 2^-18) gives the word 0x3200 and
duty 100.0 (= 13107200 * 2^-17) gives 0x6400. -/
theorem MotorMovement_duty_word_witness :
    (∃ v : Nat,
      DFMotor.MotorMovement envQuiet drv10 M1 CW (.fin false 13107200 (-18)) [] =
        (.ret true, [.writeRegU8 ⟨0x10, 1⟩ 0x0F 0x01, .writeRegU16BE ⟨0x10, 1⟩ 0x10 v]) ∧
      v / 256 = ⌊(F32.fin false 13107200 (-18)).toRat⌋₊) ∧
    encodeSpeed envQuiet.convUndef (.fin false 13107200 (-18)) = 0x3200 ∧
    encodeSpeed envQuiet.convUndef (.fin false 13107200 (-17)) = 0x6400 := by
  refine ⟨?_, by decide, by decide⟩
  obtain ⟨v, h1, _, h3, _⟩ :=
    MotorMovement_duty_word envQuiet ⟨0x10, 1⟩ 0x10 M1 CW false 13107200 (-18) []
      (Or.inl rfl) (Or.inl rfl) (by decide)
      (by simp only [F32.toRat]; norm_num) (by simp only [F32.toRat]; norm_num)
      rfl rfl
  exact ⟨v, h1, h3⟩

/-- C2, refuted as stated: 0.7 as a `float32` is d = 11744051 * 2^-24, a canonical value
in [0, 100]; `MotorMovement(M1, CW, d)` with succeeding writes writes the word 7 to the
speed register, so the low byte is 7, whereas `floor((d - floor(d)) * 10) mod 10 = 6`. -/
theorem MotorMovement_low_byte_counterexample :
    (F32.fin false 11744051 (-24)).Canonical ∧
    0 ≤ (F32.fin false 11744051 (-24)).toRat ∧ (F32.fin false 11744051 (-24)).toRat ≤ 100 ∧
    DFMotor.MotorMovement envQuiet drv10 M1 CW (.fin false 11744051 (-24)) [] =
      (.ret true, [.writeRegU8 ⟨0x10, 1⟩ 0x0F 0x01, .writeRegU16BE ⟨0x10, 1⟩ 0x10 7]) ∧
    ⌊((F32.fin false 11744051 (-24)).toRat -
        ⌊(F32.fin false 11744051 (-24)).toRat⌋₊) * 10⌋₊ % 10 = 6 ∧
    (7 : Nat) % 256 ≠
      ⌊((F32.fin false 11744051 (-24)).toRat -
        ⌊(F32.fin false 11744051 (-24)).toRat⌋₊) * 10⌋₊ % 10 := by
  have hv : (F32.fin false 11744051 (-24)).toRat = 11744051 / 16777216 := by
    simp only [F32.toRat]
    norm_num
  have hfl : ⌊(11744051 / 16777216 : ℚ)⌋₊ = 0 := by
    rw [Nat.floor_eq_zero]
    norm_num
  have h6 : ⌊((11744051 / 16777216 : ℚ) - ((0 : Nat) : ℚ)) * 10⌋₊ = 6 := by
    rw [Nat.floor_eq_iff (by norm_num)]
    norm_num
  refine ⟨by decide, ?_, ?_, by decide, ?_, ?_⟩
  · rw [hv]; norm_num
  · rw [hv]; norm_num
  · rw [hv, hfl, h6]
  · rw [hv, hfl, h6]
    decide


/-! ## Construction -/

theorem checkBoard_open_eq (env : Env) (bus : I2C) (tr : Trace) :
    checkBoard env (some bus) tr =
      if env.fails tr (.readRegU8 bus 0x01) = true then
        (.ret false, tr ++ [.readRegU8 bus 0x01])
      else if env.fails (tr ++ [.readRegU8 bus 0x01]) (.readRegU8 bus 0x02) = true then
        (.ret false, tr ++ [.readRegU8 bus 0x01, .readRegU8 bus 0x02])
      else
        (.ret (decide (env.data tr (.readRegU8 bus 0x01) % 256 = 0xDF ∧
            env.data (tr ++ [.readRegU8 bus 0x01]) (.readRegU8 bus 0x02) % 256 = 0x10)),
          tr ++ [.readRegU8 bus 0x01, .readRegU8 bus 0x02]) := by
  unfold checkBoard I2C.ReadRegU8
  simp only [_REG_PID, _REG_PVD, _REG_DEF_PID, _REG_DEF_VID]
  cases h1 : env.fails tr (.readRegU8 bus 0x01) <;>
    cases h2 : env.fails (tr ++ [.readRegU8 bus 0x01]) (.readRegU8 bus 0x02) <;>
    by_cases h3 : env.data tr (.readRegU8 bus 0x01) % 256 = 0xDF <;>
    by_cases h4 : env.data (tr ++ [.readRegU8 bus 0x01]) (.readRegU8 bus 0x02) % 256 = 0x10 <;>
    simp [h1, h2, h3, h4]

theorem checkBoard_true_trace (env : Env) (bus : I2C) (tr : Trace)
    (h : (checkBoard env (some bus) tr).1 = .ret true) :
    (checkBoard env (some bus) tr).2 = tr ++ [.readRegU8 bus 0x01, .readRegU8 bus 0x02] := by
  rw [checkBoard_open_eq] at h ⊢
  split_ifs at h ⊢ <;> simp at h ⊢

theorem MotorStop_open_eq (env : Env) (bus : I2C) (a id : Nat) (tr : Trace) :
    DFMotor.MotorStop env (some ⟨some bus, a⟩) id tr =
      (.ret (!env.fails tr (.writeRegU8 bus (add8 0x0F (mul8 3 (sub8 id 1))) 0x05)),
        tr ++ [.writeRegU8 bus (add8 0x0F (mul8 3 (sub8 id 1))) 0x05]) := by
  unfold DFMotor.MotorStop I2C.WriteRegU8
  simp only [busOf, _REG_MOTOR1_ORIENTATION, STOP]
  cases env.fails tr (.writeRegU8 bus (add8 0x0F (mul8 3 (sub8 id 1))) 0x05) <;> rfl

theorem SetEncoderDisable_open_eq (env : Env) (bus : I2C) (a id : Nat) (tr : Trace) :
    DFMotor.SetEncoderDisable env (some ⟨some bus, a⟩) id tr =
      (.ret (!env.fails tr (.writeRegU8 bus (add8 0x04 (mul8 5 (sub8 id 1))) 0)),
        tr ++ [.writeRegU8 bus (add8 0x04 (mul8 5 (sub8 id 1))) 0]) := by
  unfold DFMotor.SetEncoderDisable I2C.WriteRegU8
  simp only [busOf, _REG_ENCODER1_EN]
  cases env.fails tr (.writeRegU8 bus (add8 0x04 (mul8 5 (sub8 id 1))) 0) <;> rfl

/-- What `New` does once the bus is open, in terms of the outcome of `checkBoard`. -/
theorem New_open_eq (env : Env) (addr : Nat) (tr : Trace)
    (hopen : env.fails tr (.newI2C addr 1) = false) :
    New env addr tr =
      match checkBoard env (some ⟨addr, 1⟩) (tr ++ [.newI2C addr 1]) with
      | (.ret true, t) =>
        (.ret (some ⟨some ⟨addr, 1⟩, addr⟩),
          t ++ [.writeRegU8 ⟨addr, 1⟩ 0x03 0, .writeRegU8 ⟨addr, 1⟩ 0x0F 0x05,
            .writeRegU8 ⟨addr, 1⟩ 0x12 0x05, .writeRegU8 ⟨addr, 1⟩ 0x04 0,
            .writeRegU8 ⟨addr, 1⟩ 0x09 0])
      | (.ret false, t) =>
        if env.fatalExits = true then (.exited, t) else (.ret none, t ++ [.close ⟨addr, 1⟩])
      | (.nilDeref, t) => (.nilDeref, t)
      | (.exited, t) => (.exited, t) := by
  have hr1 : add8 0x0F (mul8 3 (sub8 M1 1)) = 0x0F := by decide
  have hr2 : add8 0x0F (mul8 3 (sub8 M2 1)) = 0x12 := by decide
  have hr3 : add8 0x04 (mul8 5 (sub8 M1 1)) = 0x04 := by decide
  have hr4 : add8 0x04 (mul8 5 (sub8 M2 1)) = 0x09 := by decide
  unfold New NewI2C
  simp only [hopen, Bool.false_eq_true, if_false]
  generalize checkBoard env (some ⟨addr, 1⟩) (tr ++ [.newI2C addr 1]) = cb
  rcases cb with ⟨o, t⟩
  cases o with
  | ret b =>
    cases b
    · simp [Outcome.andThen, I2C.Close]
    · simp [Outcome.andThen, MotorStop_open_eq, SetEncoderDisable_open_eq, I2C.WriteRegU8,
        hr1, hr2, hr3, hr4, _REG_CTRL_MODE]
  | nilDeref => simp [Outcome.andThen]
  | exited => simp [Outcome.andThen]

/-- C6: when opening the bus succeeds and identity validation returns true, `New` issues,
after the open and the two identity reads, exactly five writes in this order: 0 to
register 0x03, 0x05 to 0x0F, 0x05 to 0x12, 0 to 0x04, 0 to 0x09, whatever the outcome of
each write; it returns a controller holding the open connection and the requested
address, and no close is issued. -/
theorem New_reset_sequence (env : Env) (addr : Nat) (tr : Trace)
    (hopen : env.fails tr (.newI2C addr 1) = false)
    (hident : (checkBoard env (some ⟨addr, 1⟩) (tr ++ [.newI2C addr 1])).1 = .ret true) :
    New env addr tr =
      (.ret (some ⟨some ⟨addr, 1⟩, addr⟩),
        tr ++ [.newI2C addr 1, .readRegU8 ⟨addr, 1⟩ 0x01, .readRegU8 ⟨addr, 1⟩ 0x02,
          .writeRegU8 ⟨addr, 1⟩ 0x03 0, .writeRegU8 ⟨addr, 1⟩ 0x0F 0x05,
          .writeRegU8 ⟨addr, 1⟩ 0x12 0x05, .writeRegU8 ⟨addr, 1⟩ 0x04 0,
          .writeRegU8 ⟨addr, 1⟩ 0x09 0]) ∧
    ∀ h : I2C, BusOp.close h ∉ (New env addr tr).2.drop tr.length := by
  have key : New env addr tr =
      (.ret (some ⟨some ⟨addr, 1⟩, addr⟩),
        tr ++ [.newI2C addr 1, .readRegU8 ⟨addr, 1⟩ 0x01, .readRegU8 ⟨addr, 1⟩ 0x02,
          .writeRegU8 ⟨addr, 1⟩ 0x03 0, .writeRegU8 ⟨addr, 1⟩ 0x0F 0x05,
          .writeRegU8 ⟨addr, 1⟩ 0x12 0x05, .writeRegU8 ⟨addr, 1⟩ 0x04 0,
          .writeRegU8 ⟨addr, 1⟩ 0x09 0]) := by
    have htr := checkBoard_true_trace env ⟨addr, 1⟩ (tr ++ [.newI2C addr 1]) hident
    rw [New_open_eq env addr tr hopen]
    generalize checkBoard env (some ⟨addr, 1⟩) (tr ++ [.newI2C addr 1]) = cb at hident htr
    rcases cb with ⟨o, t⟩
    simp only at hident htr
    subst hident htr
    simp
  refine ⟨key, ?_⟩
  intro h
  rw [key]
  simp

/-- Instance of C6: with a compatible board at address 0x10, `New(0x10)` yields the
controller and the open, the two reads and the five reset writes. -/
theorem New_reset_sequence_witness :
    New envBoard 0x10 [] =
      (.ret drv10,
        [.newI2C 0x10 1, .readRegU8 ⟨0x10, 1⟩ 0x01, .readRegU8 ⟨0x10, 1⟩ 0x02,
          .writeRegU8 ⟨0x10, 1⟩ 0x03 0, .writeRegU8 ⟨0x10, 1⟩ 0x0F 0x05,
          .writeRegU8 ⟨0x10, 1⟩ 0x12 0x05, .writeRegU8 ⟨0x10, 1⟩ 0x04 0,
          .writeRegU8 ⟨0x10, 1⟩ 0x09 0]) :=
  (New_reset_sequence envBoard 0x10 [] rfl (by decide)).1

/-- The failure paths of `New`: it returns no controller when opening the bus fails or
identity validation fails. If opening fails, the open attempt is the only bus operation. If the bus
opens and identity validation fails, the only register accesses are the identity reads
(no write is issued); then, if the logger's `Fatal` returns, the connection is closed as the
last operation and nil is returned, and if `Fatal` terminates the process, `New` does not
return and no close is issued. -/
theorem New_failure (env : Env) (addr : Nat) (tr : Trace)
    (hfail : env.fails tr (.newI2C addr 1) = true ∨
      (checkBoard env (some ⟨addr, 1⟩) (tr ++ [.newI2C addr 1])).1 = .ret false) :
    (∀ d : DFMotor, (New env addr tr).1 ≠ .ret (some d)) ∧
    (env.fails tr (.newI2C addr 1) = true →
      New env addr tr = (.ret none, tr ++ [.newI2C addr 1])) ∧
    (env.fails tr (.newI2C addr 1) = false →
      ((checkBoard env (some ⟨addr, 1⟩) (tr ++ [.newI2C addr 1])).2 =
          tr ++ [.newI2C addr 1, .readRegU8 ⟨addr, 1⟩ 0x01] ∨
        (checkBoard env (some ⟨addr, 1⟩) (tr ++ [.newI2C addr 1])).2 =
          tr ++ [.newI2C addr 1, .readRegU8 ⟨addr, 1⟩ 0x01, .readRegU8 ⟨addr, 1⟩ 0x02]) ∧
      (env.fatalExits = false →
        New env addr tr =
          (.ret none, (checkBoard env (some ⟨addr, 1⟩) (tr ++ [.newI2C addr 1])).2 ++
            [.close ⟨addr, 1⟩])) ∧
      (env.fatalExits = true →
        New env addr tr =
          (.exited, (checkBoard env (some ⟨addr, 1⟩) (tr ++ [.newI2C addr 1])).2))) := by
  have hopenfail : env.fails tr (.newI2C addr 1) = true →
      New env addr tr = (.ret none, tr ++ [.newI2C addr 1]) := by
    intro h
    unfold New NewI2C
    simp [h]
  have hshape : (checkBoard env (some ⟨addr, 1⟩) (tr ++ [.newI2C addr 1])).2 =
          tr ++ [.newI2C addr 1, .readRegU8 ⟨addr, 1⟩ 0x01] ∨
        (checkBoard env (some ⟨addr, 1⟩) (tr ++ [.newI2C addr 1])).2 =
          tr ++ [.newI2C addr 1, .readRegU8 ⟨addr, 1⟩ 0x01, .readRegU8 ⟨addr, 1⟩ 0x02] := by
    rw [checkBoard_open_eq]
    split_ifs <;> simp
  cases hopen : env.fails tr (.newI2C addr 1)
  · have hcb : (checkBoard env (some ⟨addr, 1⟩) (tr ++ [.newI2C addr 1])).1 = .ret false := by
      rcases hfail with h | h
      · rw [hopen] at h; cases h
      · exact h
    have hnew := New_open_eq env addr tr hopen
    generalize checkBoard env (some ⟨addr, 1⟩) (tr ++ [.newI2C addr 1]) = cb
      at hcb hnew hshape ⊢
    rcases cb with ⟨o, t⟩
    simp only at hcb
    subst hcb
    simp only at hnew
    refine ⟨?_, by simp, fun _ => ⟨hshape, ?_, ?_⟩⟩
    · intro d
      rw [hnew]
      split_ifs <;> simp
    · intro hf
      rw [hnew]
      simp [hf]
    · intro hf
      rw [hnew]
      simp [hf]
  · refine ⟨?_, fun _ => hopenfail hopen, by simp⟩
    intro d
    rw [hopenfail hopen]
    simp

/-- With every register read failing and a `Fatal` that returns, `New(0x10)` returns nil
after open, one failed read and close. -/
theorem New_failure_witness :
    New envAbsent 0x10 [] =
      (.ret none, [.newI2C 0x10 1, .readRegU8 ⟨0x10, 1⟩ 0x01, .close ⟨0x10, 1⟩]) :=
  ((New_failure envAbsent 0x10 [] (Or.inr (by decide))).2.2 rfl).2.1 rfl

/-- C7, violated by the code: the bus opens at 0x10 and identity validation fails (the PID
read fails). `New` has registered the deferred close and is followed by `return nil`, but
the `Fatal` of go-logger terminates the process first: `New` does not return, and the trace
holds the open and the failed read but no close of the connection. -/
theorem New_fatal_skips_close :
    (checkBoard envAbsentFatal (some ⟨0x10, 1⟩) [.newI2C 0x10 1]).1 = .ret false ∧
    New envAbsentFatal 0x10 [] = (.exited, [.newI2C 0x10 1, .readRegU8 ⟨0x10, 1⟩ 0x01]) ∧
    BusOp.close ⟨0x10, 1⟩ ∉ (New envAbsentFatal 0x10 []).2 := by
  decide

/-! ## Motor stop and teardown -/

theorem SetEncoderEnable_open_eq (env : Env) (bus : I2C) (a id : Nat) (tr : Trace) :
    DFMotor.SetEncoderEnable env (some ⟨some bus, a⟩) id tr =
      (.ret (!env.fails tr (.writeRegU8 bus (add8 0x04 (mul8 5 (sub8 id 1))) 1)),
        tr ++ [.writeRegU8 bus (add8 0x04 (mul8 5 (sub8 id 1))) 1]) := by
  unfold DFMotor.SetEncoderEnable I2C.WriteRegU8
  simp only [busOf, _REG_ENCODER1_EN]
  cases env.fails tr (.writeRegU8 bus (add8 0x04 (mul8 5 (sub8 id 1))) 1) <;> rfl

theorem Close_open_eq (env : Env) (bus : I2C) (a : Nat) (tr : Trace) :
    DFMotor.Close env (some ⟨some bus, a⟩) tr =
      (.ret (some ⟨none, a⟩),
        tr ++ [.writeRegU8 bus 0x0F 0x05, .writeRegU8 bus 0x12 0x05, .close bus]) := by
  have hr1 : add8 0x0F (mul8 3 (sub8 M1 1)) = 0x0F := by decide
  have hr2 : add8 0x0F (mul8 3 (sub8 M2 1)) = 0x12 := by decide
  simp [DFMotor.Close, MotorStop_open_eq, Outcome.andThen, I2C.Close, hr1, hr2]

/-- C12: for channel 1 or 2, `MotorStop` on an open controller issues exactly one bus
operation, the single-byte write of 0x05 to register 0x0F + 3*(N-1), and returns true
exactly when that write succeeds. -/
theorem MotorStop_contract (env : Env) (bus : I2C) (a id : Nat) (tr : Trace)
    (hid : id = 1 ∨ id = 2) :
    DFMotor.MotorStop env (some ⟨some bus, a⟩) id tr =
      (.ret (!env.fails tr (.writeRegU8 bus (0x0F + 3 * (id - 1)) 0x05)),
        tr ++ [.writeRegU8 bus (0x0F + 3 * (id - 1)) 0x05]) := by
  have hreg : add8 0x0F (mul8 3 (sub8 id 1)) = 0x0F + 3 * (id - 1) := by
    rcases hid with h | h <;> subst h <;> decide
  rw [MotorStop_open_eq, hreg]

/-- Instance of C12: `MotorStop(M1)` writes 0x05 to register 0x0F and `MotorStop(M2)`
writes 0x05 to register 0x12. -/
theorem MotorStop_contract_witness :
    DFMotor.MotorStop envQuiet drv10 M1 [] = (.ret true, [.writeRegU8 ⟨0x10, 1⟩ 0x0F 0x05]) ∧
    DFMotor.MotorStop envQuiet drv10 M2 [] = (.ret true, [.writeRegU8 ⟨0x10, 1⟩ 0x12 0x05]) :=
  ⟨MotorStop_contract envQuiet ⟨0x10, 1⟩ 0x10 1 [] (Or.inl rfl),
    MotorStop_contract envQuiet ⟨0x10, 1⟩ 0x10 2 [] (Or.inr rfl)⟩

/-- C13: `Close` on an open controller writes 0x05 to register 0x0F, then 0x05 to register
0x12, then closes the connection, and leaves the controller with a nil handle and its
address unchanged, whatever the outcome of the two writes. -/
theorem Close_sequence (env : Env) (bus : I2C) (a : Nat) (tr : Trace) :
    DFMotor.Close env (some ⟨some bus, a⟩) tr =
      (.ret (some ⟨none, a⟩),
        tr ++ [.writeRegU8 bus 0x0F 0x05, .writeRegU8 bus 0x12 0x05, .close bus]) :=
  Close_open_eq env bus a tr

/-- C19: `Close` on a closed controller or on a nil controller issues no bus operation and
leaves the state unchanged; hence `Close` followed by `Close` on an open controller ends
in the same state and with the same trace as a single `Close`. -/
theorem Close_idempotent (env : Env) (bus : I2C) (a : Nat) (tr : Trace) :
    DFMotor.Close env none tr = (.ret none, tr) ∧
    DFMotor.Close env (some ⟨none, a⟩) tr = (.ret (some ⟨none, a⟩), tr) ∧
    Outcome.andThen (DFMotor.Close env (some ⟨some bus, a⟩) tr)
        (fun drv1 tr1 => DFMotor.Close env drv1 tr1) =
      DFMotor.Close env (some ⟨some bus, a⟩) tr := by
  refine ⟨rfl, rfl, ?_⟩
  rw [Close_open_eq]
  rfl

/-! ## Address reassignment and encoder enable -/

/-- C14: for every byte `addr`, `SetAddr` on an open controller returns false without any
bus operation when `addr` is 0 or above 127; otherwise it issues exactly one write of
`addr` to register 0x00 through the existing handle and returns true exactly when the
write succeeds. In every case the controller (its `Addr` field and its handle) is the same
after the call, and no connection is opened or closed. -/
theorem SetAddr_contract (env : Env) (bus : I2C) (a addr : Nat) (tr : Trace) :
    DFMotor.SetAddr env (some ⟨some bus, a⟩) addr tr =
      if addr = 0 ∨ 127 < addr then (.ret (false, some ⟨some bus, a⟩), tr)
      else (.ret (!env.fails tr (.writeRegU8 bus 0x00 addr), some ⟨some bus, a⟩),
            tr ++ [.writeRegU8 bus 0x00 addr]) := by
  unfold DFMotor.SetAddr I2C.WriteRegU8
  simp only [busOf, _REG_SLAVE_ADDR]
  by_cases h : addr = 0 ∨ 127 < addr
  · have h' : addr < 1 ∨ addr > 127 := by omega
    rw [if_pos h, if_pos h']
  · have h' : ¬ (addr < 1 ∨ addr > 127) := by omega
    rw [if_neg h, if_neg h']
    cases env.fails tr (.writeRegU8 bus 0x00 addr) <;> rfl

/-- C15: for channel 1 or 2 on an open controller, `SetEncoderEnable` issues exactly one
single-byte write of 1, and `SetEncoderDisable` exactly one single-byte write of 0, to
register 0x04 + 5*(N-1); each returns true exactly when its write succeeds. -/
theorem SetEncoderEnable_Disable_contract (env : Env) (bus : I2C) (a id : Nat) (tr : Trace)
    (hid : id = 1 ∨ id = 2) :
    DFMotor.SetEncoderEnable env (some ⟨some bus, a⟩) id tr =
      (.ret (!env.fails tr (.writeRegU8 bus (0x04 + 5 * (id - 1)) 1)),
        tr ++ [.writeRegU8 bus (0x04 + 5 * (id - 1)) 1]) ∧
    DFMotor.SetEncoderDisable env (some ⟨some bus, a⟩) id tr =
      (.ret (!env.fails tr (.writeRegU8 bus (0x04 + 5 * (id - 1)) 0)),
        tr ++ [.writeRegU8 bus (0x04 + 5 * (id - 1)) 0]) := by
  have hreg : add8 0x04 (mul8 5 (sub8 id 1)) = 0x04 + 5 * (id - 1) := by
    rcases hid with h | h <;> subst h <;> decide
  rw [SetEncoderEnable_open_eq, SetEncoderDisable_open_eq, hreg]
  exact ⟨rfl, rfl⟩

/-- Instance of C15: on channel 2 the enable write is 1 to register 0x09 and the disable
write is 0 to register 0x09. -/
theorem SetEncoderEnable_Disable_contract_witness :
    DFMotor.SetEncoderEnable envQuiet drv10 M2 [] =
      (.ret true, [.writeRegU8 ⟨0x10, 1⟩ 0x09 1]) ∧
    DFMotor.SetEncoderDisable envQuiet drv10 M2 [] =
      (.ret true, [.writeRegU8 ⟨0x10, 1⟩ 0x09 0]) :=
  SetEncoderEnable_Disable_contract envQuiet ⟨0x10, 1⟩ 0x10 2 [] (Or.inr rfl)

/-! ## Unvalidated channel argument -/

/-- C17: for every value `id` of the channel argument (every byte in particular),
`MotorStop` on an open controller issues exactly one write of 0x05, to register `(0x0F + 3*(id - 1)) mod 256`
(computed over the integers), and returns true exactly when the write succeeds. -/
theorem MotorStop_any_channel (env : Env) (bus : I2C) (a id : Nat) (tr : Trace) :
    DFMotor.MotorStop env (some ⟨some bus, a⟩) id tr =
      (.ret (!env.fails tr
          (.writeRegU8 bus ((0x0F + 3 * ((id : Int) - 1)) % 256).toNat 0x05)),
        tr ++ [.writeRegU8 bus ((0x0F + 3 * ((id : Int) - 1)) % 256).toNat 0x05]) := by
  have hreg : add8 0x0F (mul8 3 (sub8 id 1)) = ((0x0F + 3 * ((id : Int) - 1)) % 256).toNat := by
    unfold add8 mul8 sub8
    omega
  rw [MotorStop_open_eq, hreg]

/-- Instance of C17: channel value 252 targets register 0x00, the slave-address register,
and channel value 0 targets register 0x0C. -/
theorem MotorStop_any_channel_witness :
    DFMotor.MotorStop envQuiet drv10 252 [] = (.ret true, [.writeRegU8 ⟨0x10, 1⟩ 0x00 0x05]) ∧
    DFMotor.MotorStop envQuiet drv10 0 [] = (.ret true, [.writeRegU8 ⟨0x10, 1⟩ 0x0C 0x05]) :=
  ⟨(MotorStop_any_channel envQuiet ⟨0x10, 1⟩ 0x10 252 []).trans (by decide),
    (MotorStop_any_channel envQuiet ⟨0x10, 1⟩ 0x10 0 []).trans (by decide)⟩

/-! ## Failed reads of the encoder speed -/

/-- C16 (amended): `GetEncoderSpeed` does not tell a failed read from a reading of zero:
for every channel it returns 0 when the read of the encoder-speed register fails, and 0
when the read succeeds with raw word 0. -/
theorem GetEncoderSpeed_zero_on_failure (env1 env2 : Env) (bus : I2C) (a id : Nat)
    (tr1 tr2 : Trace)
    (hfail : env1.fails tr1 (.readRegU16BE bus (add8 0x05 (mul8 5 (sub8 id 1)))) = true)
    (hok : env2.fails tr2 (.readRegU16BE bus (add8 0x05 (mul8 5 (sub8 id 1)))) = false)
    (hzero : env2.data tr2 (.readRegU16BE bus (add8 0x05 (mul8 5 (sub8 id 1)))) % 65536 = 0) :
    (DFMotor.GetEncoderSpeed env1 (some ⟨some bus, a⟩) id tr1).1 = .ret 0 ∧
    (DFMotor.GetEncoderSpeed env2 (some ⟨some bus, a⟩) id tr2).1 = .ret 0 := by
  unfold DFMotor.GetEncoderSpeed I2C.ReadRegU16BE
  simp only [busOf, _REG_ENCODER1_SPPED, hfail, hok, hzero]
  exact ⟨rfl, rfl⟩

/-- Instance of C16 (amended): on channel 1, a transport whose reads fail and a transport
whose reads deliver 0 both give the result 0. -/
theorem GetEncoderSpeed_zero_on_failure_witness :
    (DFMotor.GetEncoderSpeed envAbsent drv10 M1 []).1 = .ret 0 ∧
    (DFMotor.GetEncoderSpeed envQuiet drv10 M1 []).1 = .ret 0 :=
  GetEncoderSpeed_zero_on_failure envAbsent envQuiet ⟨0x10, 1⟩ 0x10 M1 [] [] rfl rfl rfl

/-- C16, refuted as stated: on channel 1 the read of the encoder-speed register fails on
one transport and succeeds with raw word 0 on the other, and `GetEncoderSpeed` reports the
same result in both cases. -/
theorem GetEncoderSpeed_conflates_counterexample :
    envAbsent.fails [] (.readRegU16BE ⟨0x10, 1⟩ 0x05) = true ∧
    envQuiet.fails [] (.readRegU16BE ⟨0x10, 1⟩ 0x05) = false ∧
    envQuiet.data [] (.readRegU16BE ⟨0x10, 1⟩ 0x05) % 65536 = 0 ∧
    (DFMotor.GetEncoderSpeed envAbsent drv10 M1 []).1 =
      (DFMotor.GetEncoderSpeed envQuiet drv10 M1 []).1 := by
  decide

/-! ## Discovery scan -/

theorem checkBoard_ret (env : Env) (bus : I2C) (tr : Trace) :
    ∃ b ops, checkBoard env (some bus) tr = (.ret b, tr ++ ops) ∧
      ops.filter BusOp.isOpen = [] := by
  rw [checkBoard_open_eq]
  split_ifs
  · exact ⟨_, _, rfl, rfl⟩
  · exact ⟨_, _, rfl, rfl⟩
  · exact ⟨_, _, rfl, rfl⟩

theorem scanVisit_trace (env : Env) (addr : Nat) (tr : Trace) :
    ∃ ops, (scanVisit env addr tr).2 = tr ++ ops ∧
      ops.filter BusOp.isOpen = [.newI2C addr 1] := by
  unfold scanVisit
  split_ifs
  · exact ⟨_, rfl, rfl⟩
  · obtain ⟨b, ops, h, hf⟩ := checkBoard_ret env ⟨addr, 1⟩ (tr ++ [.newI2C addr 1])
    refine ⟨[.newI2C addr 1] ++ ops ++ [.close ⟨addr, 1⟩], ?_, ?_⟩
    · simp [h]
    · simp [List.filter_append, hf, BusOp.isOpen]

/-- The loop of `Detecte`, entered `n` addresses before 128, performs the `n` visits. -/
theorem Detecte_loop_eq (env : Env) (n : Nat) :
    ∀ (addr : Nat) (acc : List Nat) (tr : Trace), addr + n = 128 →
      Detecte.loop env addr acc tr =
        (.ret (acc ++ (scanFrom env n addr tr).1), (scanFrom env n addr tr).2) := by
  induction n with
  | zero =>
    intro addr acc tr h
    rw [Detecte.loop]
    simp [scanFrom, show ¬ addr < 128 by omega]
  | succ n ih =>
    intro addr acc tr h
    have hlt : addr < 128 := by omega
    have hnext : (addr + 1) % 256 = addr + 1 := by omega
    rw [Detecte.loop]
    simp only [hlt, if_true, NewI2C, hnext, scanFrom, scanVisit]
    have ih' := fun acc tr => ih (addr + 1) acc tr (by omega)
    by_cases hopen : env.fails tr (.newI2C addr 1) = true
    · simp [hopen, ih']
    · obtain ⟨b, ops, hcb, _⟩ := checkBoard_ret env ⟨addr, 1⟩ (tr ++ [.newI2C addr 1])
      cases b <;> simp [hopen, hcb, I2C.Close, ih']

theorem scanFrom_trace (env : Env) (n : Nat) :
    ∀ (addr : Nat) (tr : Trace), ∃ ops, (scanFrom env n addr tr).2 = tr ++ ops ∧
      ops.filter BusOp.isOpen = (List.range' addr n).map (fun k => BusOp.newI2C k 1) := by
  induction n with
  | zero =>
    intro addr tr
    exact ⟨[], by simp [scanFrom], rfl⟩
  | succ n ih =>
    intro addr tr
    obtain ⟨ops1, h1, hf1⟩ := scanVisit_trace env addr tr
    obtain ⟨ops2, h2, hf2⟩ := ih (addr + 1) (scanVisit env addr tr).2
    refine ⟨ops1 ++ ops2, ?_, ?_⟩
    · simp only [scanFrom]
      rw [h2, h1, List.append_assoc]
    · rw [List.filter_append, hf1, hf2, List.range'_succ]
      rfl

theorem scanVisit_fst (env : Env) (a : Nat) (tr : Trace) :
    (scanVisit env a tr).1 = true ↔
      env.fails tr (.newI2C a 1) = false ∧
        (checkBoard env (some ⟨a, 1⟩) (tr ++ [.newI2C a 1])).1 = .ret true := by
  unfold scanVisit
  split_ifs with h
  · simp [h]
  · simp [h]

theorem scanFrom_mem (env : Env) (n : Nat) :
    ∀ (addr : Nat) (tr : Trace) (a : Nat),
      a ∈ (scanFrom env n addr tr).1 ↔
        addr ≤ a ∧ a < addr + n ∧
          (scanVisit env a (scanFrom env (a - addr) addr tr).2).1 = true := by
  induction n with
  | zero =>
    intro addr tr a
    simp only [scanFrom, List.not_mem_nil, false_iff]
    omega
  | succ n ih =>
    intro addr tr a
    simp only [scanFrom, List.mem_append]
    rw [ih (addr + 1) (scanVisit env addr tr).2 a]
    by_cases ha : a = addr
    · subst ha
      simp only [Nat.sub_self, scanFrom]
      constructor
      · rintro (h | h)
        · split_ifs at h with hv
          · exact ⟨le_refl _, by omega, hv⟩
          · simp at h
        · omega
      · rintro ⟨_, _, hv⟩
        left
        simp [hv]
    · constructor
      · rintro (h | h)
        · split_ifs at h with hv
          · simp at h
            exact absurd h ha
          · simp at h
        · obtain ⟨h1, h2, h3⟩ := h
          refine ⟨by omega, by omega, ?_⟩
          have hsub : a - addr = (a - (addr + 1)) + 1 := by omega
          rw [hsub]
          simpa only [scanFrom] using h3
      · rintro ⟨h1, h2, h3⟩
        right
        refine ⟨by omega, by omega, ?_⟩
        have hsub : a - addr = (a - (addr + 1)) + 1 := by omega
        rw [hsub] at h3
        simpa only [scanFrom] using h3

theorem scanFrom_sorted (env : Env) (n : Nat) :
    ∀ (addr : Nat) (tr : Trace), (scanFrom env n addr tr).1.Pairwise (· < ·) := by
  induction n with
  | zero =>
    intro addr tr
    simp [scanFrom]
  | succ n ih =>
    intro addr tr
    simp only [scanFrom]
    rw [List.pairwise_append]
    refine ⟨?_, ih _ _, ?_⟩
    · split_ifs <;> simp
    · intro x hx y hy
      have hy' := ((scanFrom_mem env n (addr + 1) _ y).1 hy).1
      split_ifs at hx
      · simp at hx
        omega
      · simp at hx

theorem checkBoard_true_iff (env : Env) (bus : I2C) (tr : Trace) :
    (checkBoard env (some bus) tr).1 = .ret true ↔
      env.fails tr (.readRegU8 bus 0x01) = false ∧
      env.fails (tr ++ [.readRegU8 bus 0x01]) (.readRegU8 bus 0x02) = false ∧
      env.data tr (.readRegU8 bus 0x01) % 256 = 0xDF ∧
      env.data (tr ++ [.readRegU8 bus 0x01]) (.readRegU8 bus 0x02) % 256 = 0x10 := by
  rw [checkBoard_open_eq]
  split_ifs with h1 h2
  · simp [h1]
  · simp [h2]
  · simp [h1, h2]

/-- C11: for every bus environment and history, `Detecte` returns a list (it terminates
and reports no error). The list is strictly ascending; an address `a` is in it exactly
when `1 ≤ a ≤ 127`, the open at `a` succeeds and `checkBoard` on the opened connection
returns true, both evaluated after the history the scan has produced when it reaches `a`;
the open attempts of the scan are exactly those at 1, 2, ..., 127, each once and in this
order. When the transport does not depend on the history, `a` is in the list exactly when
`1 ≤ a ≤ 127`, the open at `a` succeeds, both identity reads succeed, the PID byte is 0xDF
and the VID byte is 0x10. -/
theorem Detecte_contract (env : Env) (tr : Trace) :
    ∃ (l : List Nat) (ops : Trace),
      Detecte env tr = (.ret l, tr ++ ops) ∧
      l.Pairwise (· < ·) ∧
      (∀ a, a ∈ l ↔ 1 ≤ a ∧ a ≤ 127 ∧
        env.fails (scanFrom env (a - 1) 1 tr).2 (.newI2C a 1) = false ∧
        (checkBoard env (some ⟨a, 1⟩)
          ((scanFrom env (a - 1) 1 tr).2 ++ [.newI2C a 1])).1 = .ret true) ∧
      ops.filter BusOp.isOpen = (List.range' 1 127).map (fun k => BusOp.newI2C k 1) ∧
      ((∀ t t' op, env.fails t op = env.fails t' op ∧ env.data t op = env.data t' op) →
        ∀ a, a ∈ l ↔ 1 ≤ a ∧ a ≤ 127 ∧
          env.fails [] (.newI2C a 1) = false ∧
          env.fails [] (.readRegU8 ⟨a, 1⟩ 0x01) = false ∧
          env.fails [] (.readRegU8 ⟨a, 1⟩ 0x02) = false ∧
          env.data [] (.readRegU8 ⟨a, 1⟩ 0x01) % 256 = 0xDF ∧
          env.data [] (.readRegU8 ⟨a, 1⟩ 0x02) % 256 = 0x10) := by
  obtain ⟨ops, hops, hfilter⟩ := scanFrom_trace env 127 1 tr
  have hmem : ∀ a, a ∈ (scanFrom env 127 1 tr).1 ↔ 1 ≤ a ∧ a ≤ 127 ∧
        env.fails (scanFrom env (a - 1) 1 tr).2 (.newI2C a 1) = false ∧
        (checkBoard env (some ⟨a, 1⟩)
          ((scanFrom env (a - 1) 1 tr).2 ++ [.newI2C a 1])).1 = .ret true := by
    intro a
    rw [scanFrom_mem, scanVisit_fst]
    constructor
    · rintro ⟨h1, h2, h3, h4⟩
      exact ⟨h1, by omega, h3, h4⟩
    · rintro ⟨h1, h2, h3, h4⟩
      exact ⟨h1, by omega, h3, h4⟩
  refine ⟨(scanFrom env 127 1 tr).1, ops, ?_, scanFrom_sorted env 127 1 tr, hmem, hfilter, ?_⟩
  · unfold Detecte
    rw [Detecte_loop_eq env 127 1 [] tr rfl, hops]
    simp
  · intro hst a
    rw [hmem a, checkBoard_true_iff]
    generalize (scanFrom env (a - 1) 1 tr).2 = T
    rw [(hst T [] (BusOp.newI2C a 1)).1,
      (hst (T ++ [BusOp.newI2C a 1]) [] (BusOp.readRegU8 ⟨a, 1⟩ 0x01)).1,
      (hst (T ++ [BusOp.newI2C a 1] ++ [BusOp.readRegU8 ⟨a, 1⟩ 0x01]) []
        (BusOp.readRegU8 ⟨a, 1⟩ 0x02)).1,
      (hst (T ++ [BusOp.newI2C a 1]) [] (BusOp.readRegU8 ⟨a, 1⟩ 0x01)).2,
      (hst (T ++ [BusOp.newI2C a 1] ++ [BusOp.readRegU8 ⟨a, 1⟩ 0x01]) []
        (BusOp.readRegU8 ⟨a, 1⟩ 0x02)).2]

/-- Instance of C11: on a history-independent transport with a compatible board at every
address, address 0x10 is reported and 0 and 128 are not. -/
theorem Detecte_contract_witness :
    ∃ (l : List Nat) (ops : Trace), Detecte envBoard [] = (.ret l, [] ++ ops) ∧
      0x10 ∈ l ∧ 0 ∉ l ∧ 128 ∉ l := by
  obtain ⟨l, ops, h, _, _, _, hst⟩ := Detecte_contract envBoard []
  have hmem := hst (fun _ _ _ => ⟨rfl, rfl⟩)
  refine ⟨l, ops, h, (hmem 0x10).2 (by decide), ?_, ?_⟩
  · intro h0
    have := ((hmem 0).1 h0).1
    omega
  · intro h128
    have := ((hmem 128).1 h128).2.1
    omega


/-! ## Monotonicity of the duty-cycle encoding -/

theorem roundedNum_near (n : Nat) (hn : n < 268435456) :
    n ≤ roundedNum n + 8 ∧ roundedNum n ≤ n + 8 := by
  rcases dropBits_cases n hn with h | h | h | h | h
  all_goals
    obtain ⟨hs, hb⟩ := h
    unfold roundedNum roundNat
    simp only [hs]
    norm_num
    split_ifs <;> omega

theorem roundedNum_multiple (n c : Nat) (hn : n < 268435456) :
    (16 * c ≤ n → 16 * c ≤ roundedNum n) ∧ (n ≤ 16 * c → roundedNum n ≤ 16 * c) := by
  rcases dropBits_cases n hn with h | h | h | h | h
  all_goals
    obtain ⟨hs, hb⟩ := h
    unfold roundedNum roundNat
    simp only [hs]
    norm_num
    split_ifs <;> constructor <;> intro _ <;> omega

theorem roundNat_mono (p n1 n2 : Nat) (hp : p = 1 ∨ p = 2 ∨ p = 4 ∨ p = 8 ∨ p = 16)
    (h : n1 ≤ n2) : roundNat p n1 ≤ roundNat p n2 := by
  unfold roundNat
  rcases hp with hp | hp | hp | hp | hp <;> subst hp <;> split_ifs <;> omega

theorem roundedNum_mono (n1 n2 : Nat) (h : n1 ≤ n2) (hn : n2 < 268435456) :
    roundedNum n1 ≤ roundedNum n2 := by
  rcases dropBits_cases n1 (by omega) with h1 | h1 | h1 | h1 | h1 <;>
    rcases dropBits_cases n2 hn with h2 | h2 | h2 | h2 | h2 <;>
    obtain ⟨hs1, hb1⟩ := h1 <;> obtain ⟨hs2, hb2⟩ := h2 <;>
    first
    | omega
    | (unfold roundedNum
       rw [hs1, hs2]
       exact roundNat_mono _ n1 n2 (by norm_num) h)
    | (have l1 := (roundedNum_multiple n1 1048576 (by omega)).2
       have l2 := (roundedNum_multiple n1 2097152 (by omega)).2
       have l3 := (roundedNum_multiple n1 4194304 (by omega)).2
       have l4 := (roundedNum_multiple n1 8388608 (by omega)).2
       have u1 := (roundedNum_multiple n2 1048576 hn).1
       have u2 := (roundedNum_multiple n2 2097152 hn).1
       have u3 := (roundedNum_multiple n2 4194304 hn).1
       have u4 := (roundedNum_multiple n2 8388608 hn).1
       omega)

theorem roundF32_num (neg : Bool) (n : Nat) (e : Int) (hn : n < 268435456) (he : e ≤ -17) :
    ∃ (m1 s : Nat), roundF32 neg n e = .fin neg m1 (e + (s : Int)) ∧
      m1 * 2 ^ s = roundedNum n := by
  rcases dropBits_cases n hn with h | h | h | h | h
  all_goals
    obtain ⟨hs, hb⟩ := h
    unfold roundF32 roundedNum roundNat
    simp only [hs]
    norm_num
    split_ifs
    all_goals first
      | omega
      | (refine ⟨_, 0, by congr 1; all_goals omega, ?_⟩; norm_num <;> omega)
      | (refine ⟨_, 1, by congr 1; all_goals omega, ?_⟩; norm_num <;> omega)
      | (refine ⟨_, 2, by congr 1; all_goals omega, ?_⟩; norm_num <;> omega)
      | (refine ⟨_, 3, by congr 1; all_goals omega, ?_⟩; norm_num <;> omega)
      | (refine ⟨_, 4, by congr 1; all_goals omega, ?_⟩; norm_num <;> omega)
      | (refine ⟨_, 5, by congr 1; all_goals omega, ?_⟩; norm_num; omega)

theorem mul10_toRat (neg : Bool) (m : Nat) (e : Int) (hm : m < 16777216) (he : e ≤ -17) :
    (F32.fin neg m e).mul10.toRat =
      (if neg then -1 else 1) * (roundedNum (10 * m) : ℚ) * (2 : ℚ) ^ e := by
  obtain ⟨m1, s, hr, hnum⟩ := roundF32_num neg (10 * m) e (by omega) he
  have hq : (m1 : ℚ) * 2 ^ s = (roundedNum (10 * m) : ℚ) := by exact_mod_cast hnum
  simp only [F32.mul10, hr, F32.toRat]
  rw [zpow_add₀ (by norm_num : (2 : ℚ) ≠ 0), zpow_natCast, ← hq]
  ring

theorem roundedNum_zero : roundedNum 0 = 0 := by decide

/-- For an accepted duty cycle the value is the magnitude, and so is its tenfold. -/
theorem accepted_magnitude (neg : Bool) (m : Nat) (e : Int)
    (h0 : 0 ≤ (F32.fin neg m e).toRat) (hm : m < 16777216) (he : e ≤ -17) :
    (F32.fin neg m e).toRat = (m : ℚ) * (2 : ℚ) ^ e ∧
    (F32.fin neg m e).mul10.toRat = (roundedNum (10 * m) : ℚ) * (2 : ℚ) ^ e := by
  rw [mul10_toRat neg m e hm he]
  cases neg
  · simp [F32.toRat]
  · have hm0 : m = 0 := by
      by_contra hne
      have : (F32.fin true m e).ltZero = true := by simp [F32.ltZero, hne]
      rw [F32.ltZero_iff] at this
      linarith
    subst hm0
    simp [F32.toRat, roundedNum_zero]

theorem mul10_mono (neg1 : Bool) (m1 : Nat) (e1 : Int) (neg2 : Bool) (m2 : Nat) (e2 : Int)
    (hc1 : (F32.fin neg1 m1 e1).Canonical) (hc2 : (F32.fin neg2 m2 e2).Canonical)
    (h0 : 0 ≤ (F32.fin neg1 m1 e1).toRat)
    (h12 : (F32.fin neg1 m1 e1).toRat ≤ (F32.fin neg2 m2 e2).toRat)
    (h100 : (F32.fin neg2 m2 e2).toRat ≤ 100) :
    (F32.fin neg1 m1 e1).mul10.toRat ≤ (F32.fin neg2 m2 e2).mul10.toRat := by
  have he1 := exponent_le_accepted neg1 m1 e1 hc1 h0 (le_trans h12 h100)
  have he2 := exponent_le_accepted neg2 m2 e2 hc2 (le_trans h0 h12) h100
  obtain ⟨hv1, hp1⟩ := accepted_magnitude neg1 m1 e1 h0 hc1.1 he1
  obtain ⟨hv2, hp2⟩ := accepted_magnitude neg2 m2 e2 (le_trans h0 h12) hc2.1 he2
  rw [hv1, hv2] at h12
  rw [hp1, hp2]
  have hpos1 : (0 : ℚ) < (2 : ℚ) ^ e1 := by positivity
  have hpos2 : (0 : ℚ) < (2 : ℚ) ^ e2 := by positivity
  obtain ⟨hm1, hlo1, _, hn1⟩ := hc1
  obtain ⟨hm2, hlo2, _, hn2⟩ := hc2
  rcases lt_trichotomy e1 e2 with hlt | heq | hgt
  · have hm2' : 8388608 ≤ m2 := by omega
    have hR1 : roundedNum (10 * m1) ≤ 167772160 :=
      (roundedNum_multiple (10 * m1) 10485760 (by omega)).2 (by omega)
    have hR2 : 83886080 ≤ roundedNum (10 * m2) :=
      (roundedNum_multiple (10 * m2) 5242880 (by omega)).1 (by omega)
    have hR1' : (roundedNum (10 * m1) : ℚ) ≤ 167772160 := by exact_mod_cast hR1
    have hR2' : (83886080 : ℚ) ≤ (roundedNum (10 * m2) : ℚ) := by exact_mod_cast hR2
    have hpow : (2 : ℚ) ^ (e1 + 1) ≤ (2 : ℚ) ^ e2 :=
      zpow_le_zpow_right₀ (by norm_num) (by omega)
    rw [zpow_add_one₀ (by norm_num : (2 : ℚ) ≠ 0)] at hpow
    nlinarith
  · subst heq
    have hm12 : (m1 : ℚ) ≤ (m2 : ℚ) := le_of_mul_le_mul_right h12 hpos1
    have hm12' : m1 ≤ m2 := by exact_mod_cast hm12
    have hR : roundedNum (10 * m1) ≤ roundedNum (10 * m2) :=
      roundedNum_mono _ _ (by omega) (by omega)
    have hR' : (roundedNum (10 * m1) : ℚ) ≤ (roundedNum (10 * m2) : ℚ) := by exact_mod_cast hR
    exact mul_le_mul_of_nonneg_right hR' hpos1.le
  · exfalso
    have hm1' : 8388608 ≤ m1 := by omega
    have hm1q : (8388608 : ℚ) ≤ (m1 : ℚ) := by exact_mod_cast hm1'
    have hm2q : (m2 : ℚ) < 16777216 := by exact_mod_cast hm2
    have hpow : (2 : ℚ) ^ (e2 + 1) ≤ (2 : ℚ) ^ e1 :=
      zpow_le_zpow_right₀ (by norm_num) (by omega)
    rw [zpow_add_one₀ (by norm_num : (2 : ℚ) ≠ 0)] at hpow
    nlinarith

/-- The integer part of the rounded tenfold has the integer part of the value as its
tens: `10 * floor(d) ≤ floor(fl(10*d)) ≤ 10 * floor(d) + 9`. -/
theorem tenfold_floor_range (neg : Bool) (m : Nat) (e : Int)
    (h0 : 0 ≤ (F32.fin neg m e).toRat) (hm : m < 16777216) (he : e ≤ -17) :
    10 * ⌊(F32.fin neg m e).toRat⌋₊ ≤ ⌊(F32.fin neg m e).mul10.toRat⌋₊ ∧
    ⌊(F32.fin neg m e).mul10.toRat⌋₊ ≤ 10 * ⌊(F32.fin neg m e).toRat⌋₊ + 9 := by
  obtain ⟨hv, hp⟩ := accepted_magnitude neg m e h0 hm he
  rw [hv, hp, ← truncMag_eq_floor, ← truncMag_eq_floor]
  unfold truncMag
  rw [if_neg (by omega), if_neg (by omega)]
  obtain ⟨j, hj⟩ : ∃ j : Nat, (-e).toNat = 4 + j := ⟨(-e).toNat - 4, by omega⟩
  have hD : 2 ^ (-e).toNat = 16 * 2 ^ j := by rw [hj, pow_add]; norm_num
  have hDpos : 0 < 2 ^ j := Nat.two_pow_pos j
  rw [hD]
  generalize 2 ^ j = D' at hDpos
  have hdm := Nat.div_add_mod m (16 * D')
  have hmod := Nat.mod_lt m (show 0 < 16 * D' by omega)
  have hX : 16 * D' * (m / (16 * D')) = 16 * (D' * (m / (16 * D'))) := by ring
  rw [hX] at hdm
  have hnear := (roundedNum_near (10 * m) (by omega)).2
  have hmult := (roundedNum_multiple (10 * m) (10 * (D' * (m / (16 * D')))) (by omega)).1
    (by omega)
  constructor
  · rw [Nat.le_div_iff_mul_le (by omega)]
    have : 10 * (m / (16 * D')) * (16 * D') = 16 * (10 * (D' * (m / (16 * D')))) := by ring
    rw [this]
    exact hmult
  · have hlt : roundedNum (10 * m) / (16 * D') < 10 * (m / (16 * D')) + 10 := by
      rw [Nat.div_lt_iff_lt_mul (by omega)]
      have : (10 * (m / (16 * D')) + 10) * (16 * D') =
          160 * (D' * (m / (16 * D'))) + 160 * D' := by ring
      rw [this]
      omega
    omega

theorem encodeSpeed_zero (undef : F32 → Nat) : encodeSpeed undef (.fin false 0 (-149)) = 0 := by
  have h := (encodeSpeed_eq undef false 0 (-149) (by decide)
    (by simp [F32.toRat]) (by simp [F32.toRat])).1
  have hp := (accepted_magnitude false 0 (-149) (by simp [F32.toRat]) (by norm_num)
    (by norm_num)).2
  rw [h, hp]
  simp [F32.toRat, roundedNum_zero]

theorem encodeSpeed_hundred (undef : F32 → Nat) :
    encodeSpeed undef (.fin false 13107200 (-17)) = 0x6400 := by
  have hv : (F32.fin false 13107200 (-17)).toRat = 100 := by
    simp only [F32.toRat]
    norm_num
  have h := (encodeSpeed_eq undef false 13107200 (-17) (by decide)
    (by rw [hv]; norm_num) (by rw [hv])).1
  have hp := (accepted_magnitude false 13107200 (-17) (by rw [hv]; norm_num) (by norm_num)
    (by norm_num)).2
  have hr : roundedNum (10 * 13107200) = 131072000 := by decide
  have hp' : (F32.fin false 13107200 (-17)).mul10.toRat = 1000 := by
    rw [hp, hr]
    norm_num
  rw [h, hv, hp']
  have h1 : ⌊(100 : ℚ)⌋₊ = 100 := by exact_mod_cast Nat.floor_natCast 100
  have h2 : ⌊(1000 : ℚ)⌋₊ = 1000 := by exact_mod_cast Nat.floor_natCast 1000
  rw [h1, h2]

theorem encodeSpeed_mono_aux (undef : F32 → Nat)
    (neg1 : Bool) (m1 : Nat) (e1 : Int) (neg2 : Bool) (m2 : Nat) (e2 : Int)
    (hc1 : (F32.fin neg1 m1 e1).Canonical) (hc2 : (F32.fin neg2 m2 e2).Canonical)
    (h0 : 0 ≤ (F32.fin neg1 m1 e1).toRat)
    (h12 : (F32.fin neg1 m1 e1).toRat ≤ (F32.fin neg2 m2 e2).toRat)
    (h100 : (F32.fin neg2 m2 e2).toRat ≤ 100) :
    encodeSpeed undef (.fin neg1 m1 e1) ≤ encodeSpeed undef (.fin neg2 m2 e2) := by
  have h0' := le_trans h0 h12
  have h100' := le_trans h12 h100
  have he1 := exponent_le_accepted neg1 m1 e1 hc1 h0 h100'
  have he2 := exponent_le_accepted neg2 m2 e2 hc2 h0' h100
  obtain ⟨henc1, _⟩ := encodeSpeed_eq undef neg1 m1 e1 hc1 h0 h100'
  obtain ⟨henc2, hk2⟩ := encodeSpeed_eq undef neg2 m2 e2 hc2 h0' h100
  obtain ⟨hlo1, hhi1⟩ := tenfold_floor_range neg1 m1 e1 h0 hc1.1 he1
  obtain ⟨hlo2, hhi2⟩ := tenfold_floor_range neg2 m2 e2 h0' hc2.1 he2
  have hk : ⌊(F32.fin neg1 m1 e1).toRat⌋₊ ≤ ⌊(F32.fin neg2 m2 e2).toRat⌋₊ :=
    Nat.floor_mono h12
  have hL : ⌊(F32.fin neg1 m1 e1).mul10.toRat⌋₊ ≤ ⌊(F32.fin neg2 m2 e2).mul10.toRat⌋₊ :=
    Nat.floor_mono (mul10_mono neg1 m1 e1 neg2 m2 e2 hc1 hc2 h0 h12 h100)
  rw [henc1, henc2]
  omega

/-- C18 (amended): the word MotorMovement encodes for a duty cycle is monotone on the
accepted range: for canonical `float32` values `d1 ≤ d2` in [0, 100] the encoded words
satisfy `enc(d1) ≤ enc(d2)`, where `enc(d) = floor(d) * 256 + floor(fl(10*d)) mod 10` and
`fl(10*d)` is the `float32` product; `enc(0) = 0` and `enc(100) = 0x6400` are the smallest
and the largest word encoded for a duty cycle in [0, 100]. -/
theorem encodeSpeed_monotone (undef : F32 → Nat)
    (neg1 : Bool) (m1 : Nat) (e1 : Int) (neg2 : Bool) (m2 : Nat) (e2 : Int)
    (hc1 : (F32.fin neg1 m1 e1).Canonical) (hc2 : (F32.fin neg2 m2 e2).Canonical)
    (h0 : 0 ≤ (F32.fin neg1 m1 e1).toRat)
    (h12 : (F32.fin neg1 m1 e1).toRat ≤ (F32.fin neg2 m2 e2).toRat)
    (h100 : (F32.fin neg2 m2 e2).toRat ≤ 100) :
    encodeSpeed undef (.fin neg1 m1 e1) ≤ encodeSpeed undef (.fin neg2 m2 e2) ∧
    encodeSpeed undef (.fin neg1 m1 e1) =
      ⌊(F32.fin neg1 m1 e1).toRat⌋₊ * 256 + ⌊(F32.fin neg1 m1 e1).mul10.toRat⌋₊ % 10 ∧
    encodeSpeed undef (.fin false 0 (-149)) = 0 ∧
    encodeSpeed undef (.fin false 13107200 (-17)) = 0x6400 ∧
    encodeSpeed undef (.fin neg2 m2 e2) ≤ 0x6400 := by
  have hv : (F32.fin false 13107200 (-17)).toRat = 100 := by
    simp only [F32.toRat]
    norm_num
  refine ⟨encodeSpeed_mono_aux undef neg1 m1 e1 neg2 m2 e2 hc1 hc2 h0 h12 h100,
    (encodeSpeed_eq undef neg1 m1 e1 hc1 h0 (le_trans h12 h100)).1,
    encodeSpeed_zero undef, encodeSpeed_hundred undef, ?_⟩
  rw [← encodeSpeed_hundred undef]
  exact encodeSpeed_mono_aux undef neg2 m2 e2 false 13107200 (-17) hc2 (by decide)
    (le_trans h0 h12) (by rw [hv]; exact h100) (by rw [hv])

/-- Instance of C18 (amended): 12.5 (= 13107200 * 2^-20) and 12.7 (= 13316915 * 2^-20 as a
`float32`) encode to 0x0C05 and 0x0C07. -/
theorem encodeSpeed_monotone_witness :
    encodeSpeed envQuiet.convUndef (.fin false 13107200 (-20)) ≤
      encodeSpeed envQuiet.convUndef (.fin false 13316915 (-20)) ∧
    encodeSpeed envQuiet.convUndef (.fin false 13107200 (-20)) = 0x0C05 ∧
    encodeSpeed envQuiet.convUndef (.fin false 13316915 (-20)) = 0x0C07 :=
  ⟨(encodeSpeed_monotone envQuiet.convUndef false 13107200 (-20) false 13316915 (-20)
      (by decide) (by decide)
      (by simp only [F32.toRat]; norm_num) (by simp only [F32.toRat]; norm_num)
      (by simp only [F32.toRat]; norm_num)).1,
    by decide, by decide⟩

/-- C18, refuted as stated: 0.9 as a `float32` is d = 15099494 * 2^-24, in [0, 100]; the
word MotorMovement encodes for it is 9, whereas `floor(d) * 256 + floor(10 * d) mod 10`
is 8. -/
theorem encodeSpeed_formula_counterexample :
    (F32.fin false 15099494 (-24)).Canonical ∧
    0 ≤ (F32.fin false 15099494 (-24)).toRat ∧ (F32.fin false 15099494 (-24)).toRat ≤ 100 ∧
    encodeSpeed envQuiet.convUndef (.fin false 15099494 (-24)) = 9 ∧
    ⌊(F32.fin false 15099494 (-24)).toRat⌋₊ * 256 +
      ⌊10 * (F32.fin false 15099494 (-24)).toRat⌋₊ % 10 = 8 := by
  have hv : (F32.fin false 15099494 (-24)).toRat = 15099494 / 16777216 := by
    simp only [F32.toRat]
    norm_num
  have hfl : ⌊(15099494 / 16777216 : ℚ)⌋₊ = 0 := by
    rw [Nat.floor_eq_zero]
    norm_num
  have h8 : ⌊10 * (15099494 / 16777216 : ℚ)⌋₊ = 8 := by
    rw [Nat.floor_eq_iff (by norm_num)]
    norm_num
  refine ⟨by decide, ?_, ?_, by decide, ?_⟩
  · rw [hv]; norm_num
  · rw [hv]; norm_num
  · rw [hv, hfl, h8]

end DFRobot
